import Mathlib

/-!
Verification of the falcon-url library core: the `Url` value type and its
renderer (`url.py`), query-string coercion (`_make_qs`, `_tostr`), the strict
responder validator (`router.py`), and the route template compiler/parser
(modelled from the spec, since `route.py` / `template.py` / `param.py` are not
part of the provided sources).

Python strings are modelled as Lean `String`s; percent-encoding operates on
their UTF-8 bytes (modelled as `Nat` values below 256), exactly as CPython's
`urllib.parse.quote` / `urlencode` do.
-/

namespace FalconUrl

/-- UTF-8 encoding of a single character, as the list of its byte values.
Mirrors the standard UTF-8 layout used by CPython when encoding a `str`
before percent-quoting. -/
def utf8Bytes (c : Char) : List Nat :=
  let n := c.toNat
  if n < 0x80 then [n]
  else if n < 0x800 then
    [0xC0 + n / 64, 0x80 + n % 64]
  else if n < 0x10000 then
    [0xE0 + n / 4096, 0x80 + (n / 64) % 64, 0x80 + n % 64]
  else
    [0xF0 + n / 262144, 0x80 + (n / 4096) % 64, 0x80 + (n / 64) % 64, 0x80 + n % 64]

/-- UTF-8 bytes of a whole string. -/
def strBytes (s : String) : List Nat :=
  s.data.flatMap utf8Bytes

/-- Uppercase hexadecimal digit for a value below 16. -/
def hexDigit (n : Nat) : Char :=
  if n < 10 then Char.ofNat (48 + n) else Char.ofNat (55 + n)

/-- CPython `urllib.parse` ALWAYS_SAFE byte set: ASCII letters, digits and
the characters underscore, period, hyphen, tilde. -/
def isAlwaysSafe (b : Nat) : Bool :=
  (65 ≤ b && b ≤ 90) || (97 ≤ b && b ≤ 122) || (48 ≤ b && b ≤ 57) ||
    b == 95 || b == 46 || b == 45 || b == 126

/-- Quote one byte: kept literal when always-safe or in the extra safe set,
otherwise rendered as a percent escape with uppercase hex digits. -/
def quoteByte (safe : List Nat) (b : Nat) : List Char :=
  if isAlwaysSafe b || safe.contains b then [Char.ofNat b]
  else ['%', hexDigit (b / 16), hexDigit (b % 16)]

/-- Model of `urllib.parse.quote(s)` with the default `safe="/"`:
percent-encode the UTF-8 bytes, keeping `/` (byte 47) literal. -/
def quote (s : String) : String :=
  ⟨(strBytes s).flatMap (quoteByte [47])⟩

/-- Model of `urllib.parse.quote_plus(s)` with the default empty `safe`:
like `quote` with no safe characters, but a space byte becomes `+`. -/
def quote_plus (s : String) : String :=
  ⟨(strBytes s).flatMap (fun b => if b == 32 then ['+'] else quoteByte [] b)⟩

/-- Python `"sep".join(xs)` on a list of strings. -/
def joinWith (sep : String) : List String → String
  | [] => ""
  | [x] => x
  | x :: xs => x ++ sep ++ joinWith sep xs

/-- Model of `urllib.parse.urlencode(pairs, doseq=True)` for string-valued
pairs: each pair renders as `quote_plus(key)=quote_plus(value)`, joined
with ampersands, in the given order. -/
def urlencode (pairs : List (String × String)) : String :=
  joinWith "&" (pairs.map fun p => quote_plus p.1 ++ "=" ++ quote_plus p.2)

/-! ## Query value coercion (`_tostr`, `_make_qs`) -/

/-- A scalar query value: `str`, `bool`, `int` or `float`. A Python float is
represented by its decimal text (the result of `str(v)`), since `_tostr`
only ever passes a float through `str`. -/
inductive Scalar
  | s (v : String)
  | b (v : Bool)
  | i (v : Int)
  | f (text : String)
deriving DecidableEq, Repr

/-- Model of `_tostr`: `True` renders as `"true"`, `False` as `"false"`,
anything else via `str`. -/
def _tostr : Scalar → String
  | .b true => "true"
  | .b false => "false"
  | .s v => v
  | .i v => toString v
  | .f text => text

/-- An element of an iterable query value: either a scalar, or some other
object (one that is not a `str`/`int`/`float`/`bool`). -/
inductive QElt
  | scalar (s : Scalar)
  | other
deriving DecidableEq, Repr

/-- A query argument value: a scalar or an iterable of elements.
(`None` is modelled by `Option` at the use site.) -/
inductive QVal
  | scalar (s : Scalar)
  | iter (elts : List QElt)
deriving DecidableEq, Repr

/-- The `isinstance(elt, str | int | float)` test of `_make_qs`
(`bool` is a subclass of `int` in Python, so booleans pass it). -/
def isScalarElt : QElt → Bool
  | .scalar _ => true
  | .other => false

/-- Scalar payload of an iterable element, when it is one. -/
def eltScalar : QElt → Option Scalar
  | .scalar s => some s
  | .other => none

/-- Model of `_make_qs`: keys with `None` values are skipped; a scalar value
contributes one pair; an iterable contributes one pair per element when all
its elements are scalars, and nothing at all otherwise. Pairs are produced
in argument order. -/
def _make_qs : List (String × Option QVal) → List (String × String)
  | [] => []
  | (k, v) :: rest =>
    (match v with
     | none => []
     | some (.scalar sc) => [(k, _tostr sc)]
     | some (.iter elts) =>
       if elts.all isScalarElt then
         elts.filterMap (fun e => (eltScalar e).map fun sc => (k, _tostr sc))
       else []) ++ _make_qs rest

/-! ## The Url value type -/

/-- Model of the `Url` class: the five slots `_root`, `_loc`, `_segments`,
`_query`, `_frag`. The `query` slot holds `None` or a sequence of
already-coerced key/value text pairs. -/
structure Url where
  root : Option String
  segments : List String
  loc : Option String
  query : Option (List (String × String))
  frag : Option String
deriving DecidableEq, Repr

/-- Model of `Url.as_str`: prepend the root (when present) to the segments,
join with `/` and percent-quote the result keeping `/` literal; prepend a
truthy (non-empty) location verbatim; append `?` and the form-encoded query
when the query is truthy (present and non-empty) and encodes to non-empty
text; append `#` and the quoted fragment whenever the fragment is not
`None`. -/
def as_str (u : Url) : String :=
  let segments := match u.root with
    | some r => r :: u.segments
    | none => u.segments
  let url := quote (joinWith "/" segments)
  let url := match u.loc with
    | some l => if l ≠ "" then l ++ url else url
    | none => url
  let url := match u.query with
    | some q =>
      if q ≠ [] then
        let qs := urlencode q
        if qs ≠ "" then url ++ "?" ++ qs else url
      else url
    | none => url
  match u.frag with
  | some f => url ++ "#" ++ quote f
  | none => url

/-- Model of `Url.__eq__` for two `Url` operands: rendered texts compared
(the `other is self` fast path returns `True`, which agrees with comparing
the rendering of a value with itself). -/
def url_eq (a b : Url) : Bool :=
  as_str a == as_str b

/-- The tuple hashed by `Url.__hash__`: `(loc, root, segments, query, frag)`.
Python hashes this raw field tuple, so equal tuples hash equal and the hash
ignores rendering. -/
def hashKey (u : Url) : Option String × Option String × List String ×
    Option (List (String × String)) × Option String :=
  (u.loc, u.root, u.segments, u.query, u.frag)

/-- Model of `Url.with_location`. -/
def with_location (u : Url) (location : String) : Url :=
  { root := u.root, segments := u.segments, loc := some location,
    query := u.query, frag := u.frag }

/-- Model of `Url.with_query`: the query slot is rebuilt from the keyword
arguments via `_make_qs`; every other slot is copied. -/
def with_query (u : Url) (keyvals : List (String × Option QVal)) : Url :=
  { root := u.root, segments := u.segments, loc := u.loc,
    query := some (_make_qs keyvals), frag := u.frag }

/-- Model of `Url.with_fragment`. -/
def with_fragment (u : Url) (fragment : String) : Url :=
  { root := u.root, segments := u.segments, loc := u.loc,
    query := u.query, frag := some fragment }

/-- Model of `Url.with_root`. -/
def with_root (u : Url) (root : String) : Url :=
  { root := some root, segments := u.segments, loc := u.loc,
    query := u.query, frag := u.frag }

/-- Model of `Url.__truediv__`: append one segment. -/
def truediv (u : Url) (right : String) : Url :=
  { root := u.root, segments := u.segments ++ [right], loc := u.loc,
    query := u.query, frag := u.frag }

/-- Model of `Url.__rtruediv__`: prepend one segment. -/
def rtruediv (left : String) (u : Url) : Url :=
  { root := u.root, segments := left :: u.segments, loc := u.loc,
    query := u.query, frag := u.frag }

/-- Python indexing of a tuple by a possibly negative integer index:
negative indices count from the end; out of range raises `IndexError`
(modelled as `none`). -/
def pyIndex (xs : List String) (i : Int) : Option String :=
  let j : Int := if i < 0 then i + xs.length else i
  if h : 0 ≤ j ∧ j < xs.length then
    some (xs.get ⟨j.toNat, by omega⟩)
  else none

/-- Model of `Url.__getitem__` with an integer index: the new Url keeps the
single selected segment (wrapped back into a tuple); an out-of-range index
raises. -/
def getitem_idx (u : Url) (i : Int) : Option Url :=
  (pyIndex u.segments i).map fun s =>
    { root := u.root, segments := [s], loc := u.loc,
      query := u.query, frag := u.frag }

/-- CPython slice index adjustment (`PySlice_AdjustIndices`): resolve the
optional start/stop against the length for the given nonzero step. -/
def sliceAdjust (len : Nat) (start stop : Option Int) (step : Int) :
    Int × Int :=
  let L : Int := len
  if 0 < step then
    (match start with
     | none => 0
     | some s => if s < 0 then max (s + L) 0 else min s L,
     match stop with
     | none => L
     | some e => if e < 0 then max (e + L) 0 else min e L)
  else
    (match start with
     | none => L - 1
     | some s => if s < 0 then max (s + L) (-1) else min s (L - 1),
     match stop with
     | none => -1
     | some e => if e < 0 then max (e + L) (-1) else min e (L - 1))

/-- Number of indices produced by an adjusted slice, following CPython's
`PySlice_AdjustIndices` length formula. -/
def sliceCount (start stop step : Int) : Nat :=
  if 0 < step then
    if start < stop then (stop - start - 1).toNat / step.toNat + 1 else 0
  else
    if stop < start then (start - stop - 1).toNat / (-step).toNat + 1 else 0

/-- Python slicing of a tuple of strings with optional start/stop and a
nonzero step: the elements at `start, start+step, ...` after index
adjustment. -/
def pySlice (xs : List String) (start stop : Option Int) (step : Int) :
    List String :=
  let (s, e) := sliceAdjust xs.length start stop step
  (List.range (sliceCount s e step)).filterMap fun k =>
    xs.get? (s + step * k).toNat

/-- Model of `Url.__getitem__` with a slice: the segment tuple is replaced
by the selected sub-sequence; all other slots are copied. -/
def getitem_slice (u : Url) (start stop : Option Int) (step : Int) : Url :=
  { root := u.root, segments := pySlice u.segments start stop step,
    loc := u.loc, query := u.query, frag := u.frag }

/-! ## Spec-side rendering (from the specification's words, for C1) -/

/-- Rendering as the specification words it: path segments preceded by the
root when present, joined with `/` and percent-encoded keeping `/`
unescaped; the location, when present, prepended verbatim; when the query
pair list is non-empty, `?` followed by the form-urlencoded pairs in their
given order; when the fragment is set (including the empty string), `#`
followed by the percent-encoded fragment. -/
def as_str_spec (u : Url) : String :=
  let path := quote (joinWith "/" (match u.root with
    | some r => r :: u.segments
    | none => u.segments))
  let withLoc := match u.loc with
    | some l => l ++ path
    | none => path
  let withQuery := match u.query with
    | some q => if q ≠ [] then withLoc ++ "?" ++ urlencode q else withLoc
    | none => withLoc
  match u.frag with
  | some f => withQuery ++ "#" ++ quote f
  | none => withQuery

/-! ## Supporting lemmas -/

theorem joinWith_cons_len (sep x : String) (xs : List String) :
    x.length ≤ (joinWith sep (x :: xs)).length := by
  cases xs with
  | nil => simp [joinWith]
  | cons y ys =>
    simp only [joinWith, String.length_append]
    omega

theorem urlencode_cons_ne_empty (p : String × String)
    (rest : List (String × String)) : urlencode (p :: rest) ≠ "" := by
  intro he
  unfold urlencode at he
  rw [List.map_cons] at he
  have h1 := joinWith_cons_len "&" (quote_plus p.1 ++ "=" ++ quote_plus p.2)
      (rest.map fun q => quote_plus q.1 ++ "=" ++ quote_plus q.2)
  rw [he] at h1
  simp only [String.length_append] at h1
  have h2 : ("=" : String).length = 1 := rfl
  have h0 : ("" : String).length = 0 := rfl
  rw [h2, h0] at h1
  omega

/-! ## Claim theorems for the Url component -/

/-- C1: for every Url, `as_str` returns the path segments, preceded by the
root when present, joined with `/` and percent-encoded with `/` unescaped;
the location, when present, prepended verbatim; then, for a non-empty
query pair list, `?` followed by the form-urlencoded pairs in order; then,
when the fragment is set (including the empty string), `#` followed by the
percent-encoded fragment. -/
theorem C1_as_str_renders_per_spec (u : Url) : as_str u = as_str_spec u := by
  obtain ⟨root, segs, loc, query, frag⟩ := u
  simp only [as_str, as_str_spec]
  cases loc with
  | none =>
    cases query with
    | none => rfl
    | some q =>
      by_cases hq : q = []
      · simp [hq]
      · obtain ⟨p, rest, rfl⟩ := List.exists_cons_of_ne_nil hq
        simp [urlencode_cons_ne_empty]
  | some l =>
    by_cases hl : l = ""
    · subst hl
      cases query with
      | none => simp
      | some q =>
        by_cases hq : q = []
        · simp [hq]
        · obtain ⟨p, rest, rfl⟩ := List.exists_cons_of_ne_nil hq
          simp [urlencode_cons_ne_empty]
    · cases query with
      | none => simp [hl]
      | some q =>
        by_cases hq : q = []
        · simp [hq, hl]
        · obtain ⟨p, rest, rfl⟩ := List.exists_cons_of_ne_nil hq
          simp [urlencode_cons_ne_empty, hl]

/-- C2: two Urls compare equal exactly when their rendered texts are equal;
and there are Urls with distinct raw field tuples (hence distinct hash
inputs) that render identically and therefore compare equal. -/
theorem C2_eq_iff_rendered_eq :
    (∀ a b : Url, url_eq a b = true ↔ as_str a = as_str b) ∧
    (url_eq ⟨some "a", [], none, none, none⟩ ⟨none, ["a"], none, none, none⟩
        = true ∧
      hashKey ⟨some "a", [], none, none, none⟩ ≠
        hashKey ⟨none, ["a"], none, none, none⟩) := by
  refine ⟨fun a b => ?_, by decide, by simp [hashKey]⟩
  simp [url_eq]

/-- C10: `with_query` replaces the query part entirely: the query of the
result is exactly the coercion of the given keyword mapping, whatever query
the receiver had. -/
theorem C10_with_query_replaces (u : Url) (kv : List (String × Option QVal)) :
    (with_query u kv).query = some (_make_qs kv) := rfl

theorem filterMap_scalar_pairs (k : String) (scs : List Scalar) :
    (scs.map QElt.scalar).filterMap
        (fun e => (eltScalar e).map fun sc => (k, _tostr sc))
      = scs.map fun sc => (k, _tostr sc) := by
  rw [List.filterMap_map]
  have hfun : ((fun e => (eltScalar e).map fun sc => (k, _tostr sc)) ∘
      QElt.scalar) = some ∘ fun sc => (k, _tostr sc) := rfl
  rw [hfun, List.filterMap_eq_map]

/-- C3: coercion of keyword arguments by `with_query`: the query becomes
exactly `_make_qs` of the mapping, and `_make_qs` sends `True` to
`key=true`, `False` to `key=false`, drops `None` keys, renders a string,
integer or float scalar as one pair with its text form, expands an
iterable of scalars into one pair per element in element order under the
repeated key, and concatenates contributions in keyword order. -/
theorem C3_query_coercion :
    (∀ u kv, (with_query u kv).query = some (_make_qs kv)) ∧
    (∀ k rest, _make_qs ((k, some (.scalar (.b true))) :: rest)
        = (k, "true") :: _make_qs rest) ∧
    (∀ k rest, _make_qs ((k, some (.scalar (.b false))) :: rest)
        = (k, "false") :: _make_qs rest) ∧
    (∀ k rest, _make_qs ((k, none) :: rest) = _make_qs rest) ∧
    (∀ k v rest, _make_qs ((k, some (.scalar (.s v))) :: rest)
        = (k, v) :: _make_qs rest) ∧
    (∀ k (v : Int) rest, _make_qs ((k, some (.scalar (.i v))) :: rest)
        = (k, toString v) :: _make_qs rest) ∧
    (∀ k t rest, _make_qs ((k, some (.scalar (.f t))) :: rest)
        = (k, t) :: _make_qs rest) ∧
    (∀ k (scs : List Scalar) rest,
      _make_qs ((k, some (.iter (scs.map QElt.scalar))) :: rest)
        = scs.map (fun sc => (k, _tostr sc)) ++ _make_qs rest) := by
  refine ⟨fun _ _ => rfl, fun _ _ => rfl, fun _ _ => rfl, fun _ _ => rfl,
    fun _ _ _ => rfl, fun _ _ _ => rfl, fun _ _ _ => rfl,
    fun k scs rest => ?_⟩
  have hall : (scs.map QElt.scalar).all isScalarElt = true := by
    simp [List.all_map, isScalarElt, Function.comp_def]
  simp [_make_qs, hall, filterMap_scalar_pairs k scs]

/-- C5: an iterable query value containing at least one element that is not
a string, integer, float or boolean contributes zero pairs for its key and
raises nothing (the coercion is a total function). -/
theorem C5_malformed_iterable_contributes_nothing
    (k : String) (elts : List QElt) (rest : List (String × Option QVal))
    (h : ∃ e ∈ elts, isScalarElt e = false) :
    _make_qs ((k, some (.iter elts)) :: rest) = _make_qs rest := by
  obtain ⟨e, he, hne⟩ := h
  have hall : elts.all isScalarElt = false := by
    rw [List.all_eq_false]
    exact ⟨e, he, by simp [hne]⟩
  simp [_make_qs, hall]

theorem C5_witness :
    (∃ e ∈ [QElt.other], isScalarElt e = false) ∧
    _make_qs [("a", some (.iter [QElt.other])), ("b", some (.scalar (.i 1)))]
      = _make_qs [("b", some (.scalar (.i 1)))] :=
  ⟨⟨.other, by simp, rfl⟩,
    C5_malformed_iterable_contributes_nothing "a" [QElt.other]
      [("b", some (.scalar (.i 1)))] ⟨.other, by simp, rfl⟩⟩

/-- C7: every Url operation is non-mutating (all operations here are pure
functions of the receiver, which is never changed) and returns a new Url
in which only the named component differs: the with_* operations replace
exactly their slot, division appends or prepends exactly one segment, and
indexing/slicing replaces exactly the segment sequence. -/
theorem C7_operations_frame :
    (∀ u r, with_root u r = { u with root := some r }) ∧
    (∀ u l, with_location u l = { u with loc := some l }) ∧
    (∀ u f, with_fragment u f = { u with frag := some f }) ∧
    (∀ u kv, with_query u kv = { u with query := some (_make_qs kv) }) ∧
    (∀ u s, truediv u s = { u with segments := u.segments ++ [s] }) ∧
    (∀ u s, rtruediv s u = { u with segments := s :: u.segments }) ∧
    (∀ u a b st, getitem_slice u a b st
        = { u with segments := pySlice u.segments a b st }) ∧
    (∀ u i u', getitem_idx u i = some u' →
      u'.root = u.root ∧ u'.loc = u.loc ∧ u'.query = u.query ∧
        u'.frag = u.frag ∧ ∃ s, u'.segments = [s]) := by
  refine ⟨fun _ _ => rfl, fun _ _ => rfl, fun _ _ => rfl, fun _ _ => rfl,
    fun _ _ => rfl, fun _ _ => rfl, fun _ _ _ _ => rfl, fun u i u' h => ?_⟩
  unfold getitem_idx at h
  cases hp : pyIndex u.segments i with
  | none => rw [hp] at h; simp at h
  | some s =>
    rw [hp] at h
    simp only [Option.map_some', Option.some.injEq] at h
    subst h
    exact ⟨rfl, rfl, rfl, rfl, s, rfl⟩

theorem C7_operations_frame_witness :
    getitem_idx ⟨some "r", ["a", "b"], some "L", some [("k", "v")], some "f"⟩
        (-1) = some ⟨some "r", ["b"], some "L", some [("k", "v")], some "f"⟩ ∧
      ((some "r" : Option String) = some "r" ∧
        (some "L" : Option String) = some "L" ∧
        (some [("k", "v")] : Option (List (String × String)))
          = some [("k", "v")] ∧
        (some "f" : Option String) = some "f" ∧
        ∃ s, ["b"] = [s]) :=
  ⟨by decide,
    C7_operations_frame.2.2.2.2.2.2.2
      ⟨some "r", ["a", "b"], some "L", some [("k", "v")], some "f"⟩ (-1)
      ⟨some "r", ["b"], some "L", some [("k", "v")], some "f"⟩ (by decide)⟩

/-! ## Strict responder validation (`router.py`, `_validate_responder`)

The validator inspects only the handler's name and declared parameters
(name, parameter kind, presence of a default, optional type annotation) and
the route's parameters (`id` and declared value type `_anno`). Annotations
and route value types are modelled as opaque strings compared for equality,
exactly as the code compares them with `==` / `!=`. -/

/-- The `inspect.Parameter.kind` values. -/
inductive PKind
  | posOnly | posOrKw | varPos | kwOnly | varKw
deriving DecidableEq, Repr

/-- One declared parameter of a handler: its name, kind, whether it has a
default value, and its type annotation (`none` models `Parameter.empty`). -/
structure SigParam where
  name : String
  kind : PKind
  hasDefault : Bool
  anno : Option String
deriving DecidableEq, Repr

/-- One route parameter as returned by `route._get_params()`: its `id` and
its declared value type `_anno`. -/
structure RouteArg where
  id : String
  anno : String
deriving DecidableEq, Repr

/-- The distinct failures `_validate_responder` can raise. -/
inductive VErr
  | badName
  | unpackError
  | wrongReq
  | wrongResp
  | nameMismatch (names : List String)
  | noMatchingParam
  | defaultNotAllowed (name : String)
  | missingAnno (name : String)
  | annoMismatch (name : String)
deriving DecidableEq, Repr

/-- Model of `str.startswith`: character-level prefix test. -/
def pyStartswith (s pre : String) : Bool :=
  pre.data.isPrefixOf s.data

/-- The check applied to each of the two leading parameters: kind
`POSITIONAL_ONLY` or `POSITIONAL_OR_KEYWORD`, and no default value. -/
def posAssignable (p : SigParam) : Bool :=
  (p.kind == .posOnly || p.kind == .posOrKw) && !p.hasDefault

/-- The keyword-only parameters among those after the two leading ones. -/
def kwOnlyParams (rest : List SigParam) : List SigParam :=
  rest.filter (fun p => p.kind == .kwOnly)

/-- Symmetric difference of two string lists viewed as sets (the Python
`set(xs) ^ set(ys)`), before sorting. -/
def symmDiff (xs ys : List String) : List String :=
  xs.dedup.filter (fun s => decide (s ∉ ys)) ++
    ys.dedup.filter (fun s => decide (s ∉ xs))

/-- Model of Python `sorted` on a list of strings (code-point
lexicographic order). -/
def sortStrings (l : List String) : List String :=
  l.insertionSort (· ≤ ·)

/-- The per-argument loop of `_validate_responder`: for each route argument
in order, locate the keyword-only parameter of the same name (a missing one
models the `StopIteration` of `next`, unreachable after the set check),
then reject a default value, a missing annotation, or an annotation different
from the route argument's declared value type. -/
def checkArgs (rps : List SigParam) : List RouteArg → Except VErr Unit
  | [] => .ok ()
  | a :: rest =>
    match rps.find? (fun p => p.name == a.id) with
    | none => .error .noMatchingParam
    | some p =>
      if p.hasDefault then .error (.defaultNotAllowed p.name)
      else
        match p.anno with
        | none => .error (.missingAnno p.name)
        | some an =>
          if an ≠ a.anno then .error (.annoMismatch p.name)
          else checkArgs rps rest

/-- Model of `_validate_responder`: the handler name must begin with
`on_`; the parameter list is unpacked as `req, resp, *rest` (fewer than two
parameters is an unpacking error); `req` and `resp` must be positionally
assignable without defaults; the keyword-only names among `rest` must match
the route argument ids exactly (else the sorted symmetric difference is
reported); then each route argument's parameter is checked for default,
missing annotation and annotation equality. -/
def _validate_responder (name : String) (params : List SigParam)
    (routeArgs : List RouteArg) : Except VErr Unit :=
  if ¬ pyStartswith name "on_" then .error .badName
  else
    match params with
    | [] => .error .unpackError
    | [_] => .error .unpackError
    | req :: resp :: rest =>
      if ¬ posAssignable req then .error .wrongReq
      else if ¬ posAssignable resp then .error .wrongResp
      else
        let rps := kwOnlyParams rest
        let diff := sortStrings (symmDiff (routeArgs.map (·.id))
          (rps.map (·.name)))
        if diff ≠ [] then .error (.nameMismatch diff)
        else checkArgs rps routeArgs

/-- C9: the `on_` name check comes first: whenever the handler name does not
start with `on_`, validation fails with the bad-name error, whatever the
parameter signature and the route arguments. -/
theorem C9_name_checked_first (name : String) (params : List SigParam)
    (routeArgs : List RouteArg) (h : pyStartswith name "on_" = false) :
    _validate_responder name params routeArgs = .error .badName := by
  unfold _validate_responder
  simp [h]

theorem C9_witness : pyStartswith "get" "on_" = false ∧
    _validate_responder "get"
        [⟨"req", .posOrKw, false, none⟩, ⟨"resp", .posOrKw, false, none⟩]
        [] = .error .badName :=
  ⟨by decide, C9_name_checked_first "get"
    [⟨"req", .posOrKw, false, none⟩, ⟨"resp", .posOrKw, false, none⟩] []
    (by decide)⟩

/-- Success conditions of strict signature validation, as claim C4 words
them: the first two parameters are positionally assignable with no default;
the keyword-only parameter name set equals the route parameter id set
exactly; and every keyword-only parameter matching a route argument has no
default and carries exactly the route argument's declared value type as its
annotation. Handlers with fewer than two parameters cannot satisfy this. -/
def C4Conditions (params : List SigParam) (routeArgs : List RouteArg) : Prop :=
  match params with
  | req :: resp :: rest =>
    posAssignable req = true ∧ posAssignable resp = true ∧
    (∀ s, s ∈ (kwOnlyParams rest).map SigParam.name ↔
        s ∈ routeArgs.map RouteArg.id) ∧
    (∀ a ∈ routeArgs, ∀ p ∈ kwOnlyParams rest,
      p.name = a.id → p.hasDefault = false ∧ p.anno = some a.anno)
  | _ => False

theorem sortStrings_eq_nil_iff (l : List String) :
    sortStrings l = [] ↔ l = [] := by
  constructor
  · intro h
    have hp : List.Perm (sortStrings l) l := by
      unfold sortStrings
      exact List.perm_insertionSort _ l
    rw [h] at hp
    exact hp.symm.eq_nil
  · intro h
    subst h
    rfl

theorem symmDiff_eq_nil_iff (xs ys : List String) :
    symmDiff xs ys = [] ↔ (∀ s, s ∈ xs ↔ s ∈ ys) := by
  simp only [symmDiff, List.append_eq_nil, List.filter_eq_nil_iff,
    List.mem_dedup, decide_eq_true_eq, not_not]
  constructor
  · rintro ⟨h1, h2⟩ s
    exact ⟨fun hs => h1 s hs, fun hs => h2 s hs⟩
  · intro h
    exact ⟨fun s hs => (h s).mp hs, fun s hs => (h s).mpr hs⟩

theorem mem_symmDiff_iff (xs ys : List String) (s : String) :
    s ∈ symmDiff xs ys ↔
      (s ∈ xs ∧ s ∉ ys) ∨ (s ∈ ys ∧ s ∉ xs) := by
  simp [symmDiff, List.mem_filter, List.mem_dedup]

theorem checkArgs_ok_iff (rps : List SigParam) (args : List RouteArg) :
    checkArgs rps args = .ok () ↔
      ∀ a ∈ args, ∃ p, rps.find? (fun q => q.name == a.id) = some p ∧
        p.hasDefault = false ∧ p.anno = some a.anno := by
  induction args with
  | nil => simp [checkArgs]
  | cons a rest ih =>
    simp only [checkArgs, List.forall_mem_cons]
    cases hf : rps.find? (fun q => q.name == a.id) with
    | none => simp [hf]
    | some p =>
      by_cases hd : p.hasDefault
      · simp [hf, hd]
      · cases hanno : p.anno with
        | none => simp [hf, hd, hanno]
        | some an =>
          by_cases hm : an = a.anno
          · subst hm
            simp [hf, hd, hanno, ih]
          · simp [hf, hd, hanno, hm]

theorem checkArgs_ok_or_mismatch (rps : List SigParam)
    (args : List RouteArg)
    (hfind : ∀ a ∈ args, ∃ p, rps.find? (fun q => q.name == a.id) = some p)
    (hnd : ∀ p ∈ rps, p.hasDefault = false)
    (hanno : ∀ p ∈ rps, p.anno ≠ none) :
    checkArgs rps args = .ok () ∨
      ∃ a ∈ args, ∃ p ∈ rps, p.name = a.id ∧ p.anno ≠ some a.anno ∧
        checkArgs rps args = .error (.annoMismatch a.id) := by
  induction args with
  | nil => exact .inl rfl
  | cons a rest ih =>
    obtain ⟨p, hp⟩ := hfind a (by simp)
    have hpmem : p ∈ rps := List.mem_of_find?_eq_some hp
    have hpname : p.name = a.id := by
      have := List.find?_some hp
      simpa using this
    have hpd : p.hasDefault = false := hnd p hpmem
    obtain ⟨an, han⟩ := Option.ne_none_iff_exists'.mp (hanno p hpmem)
    by_cases hm : an = a.anno
    · subst hm
      have hrec := ih (fun a' ha' => hfind a' (by simp [ha']))
      have hstep : checkArgs rps (a :: rest) = checkArgs rps rest := by
        simp [checkArgs, hp, hpd, han]
      rcases hrec with hok | ⟨a', ha', p', hp', hn', hmm', herr'⟩
      · exact .inl (by rw [hstep, hok])
      · exact .inr ⟨a', by simp [ha'], p', hp', hn', hmm', by rw [hstep, herr']⟩
    · refine .inr ⟨a, by simp, p, hpmem, hpname, by simp [han, hm], ?_⟩
      rw [show checkArgs rps (a :: rest)
          = .error (.annoMismatch p.name) from by simp [checkArgs, hp, hpd, han, hm]]
      rw [hpname]

theorem validate_unfold (name : String) (req resp : SigParam)
    (rest : List SigParam) (routeArgs : List RouteArg)
    (hname : pyStartswith name "on_" = true)
    (hreq : posAssignable req = true) (hresp : posAssignable resp = true) :
    _validate_responder name (req :: resp :: rest) routeArgs =
      (if sortStrings (symmDiff (routeArgs.map (·.id))
            ((kwOnlyParams rest).map (·.name))) ≠ [] then
        .error (.nameMismatch (sortStrings (symmDiff (routeArgs.map (·.id))
          ((kwOnlyParams rest).map (·.name)))))
      else checkArgs (kwOnlyParams rest) routeArgs) := by
  simp [_validate_responder, hname, hreq, hresp]

theorem find_isSome_of_mem (rps : List SigParam) (aid : String)
    (h : aid ∈ rps.map SigParam.name) :
    ∃ p, rps.find? (fun q => q.name == aid) = some p := by
  obtain ⟨p, hpmem, hpname⟩ := List.mem_map.mp h
  have hfind : (rps.find? (fun q => q.name == aid)).isSome := by
    rw [List.find?_isSome]
    exact ⟨p, hpmem, by simp [hpname]⟩
  exact Option.isSome_iff_exists.mp hfind

theorem find_forall_bridge (rps : List SigParam) (args : List RouteArg)
    (hnodup : (rps.map SigParam.name).Nodup)
    (hset : ∀ s, s ∈ rps.map SigParam.name ↔ s ∈ args.map RouteArg.id) :
    (∀ a ∈ args, ∃ p, rps.find? (fun q => q.name == a.id) = some p ∧
        p.hasDefault = false ∧ p.anno = some a.anno) ↔
      (∀ a ∈ args, ∀ p ∈ rps, p.name = a.id →
        p.hasDefault = false ∧ p.anno = some a.anno) := by
  constructor
  · intro h a ha p hp hpname
    obtain ⟨p', hf, hd, hanno⟩ := h a ha
    have hp'mem := List.mem_of_find?_eq_some hf
    have hp'name : p'.name = a.id := by simpa using List.find?_some hf
    have hpp : p = p' :=
      List.inj_on_of_nodup_map hnodup hp hp'mem (by rw [hpname, hp'name])
    subst hpp
    exact ⟨hd, hanno⟩
  · intro h a ha
    have haid : a.id ∈ rps.map SigParam.name :=
      (hset a.id).mpr (List.mem_map_of_mem _ ha)
    obtain ⟨p', hf⟩ := find_isSome_of_mem rps a.id haid
    have hp'mem := List.mem_of_find?_eq_some hf
    have hp'name : p'.name = a.id := by simpa using List.find?_some hf
    obtain ⟨hd, hanno⟩ := h a ha p' hp'mem hp'name
    exact ⟨p', hf, hd, hanno⟩

/-- C4: with the `on_` name precheck passed (see C9) and the Python
invariants that a signature's parameter names and a route's parameter ids
are duplicate-free, strict validation succeeds exactly under the claim's
conditions; after two good leading parameters, a name-set mismatch is
reported as an error listing exactly the symmetric difference of the two
name sets; and when names, defaults and annotation presence are in order,
any remaining failure is an annotation-mismatch error naming a route
parameter whose keyword parameter's annotation differs from the declared
value type. Handler parameters that are not keyword-only (beyond the two
leading ones) never enter the checks. -/
theorem C4_strict_validation (name : String) (params : List SigParam)
    (routeArgs : List RouteArg)
    (hname : pyStartswith name "on_" = true)
    (hpn : (params.map SigParam.name).Nodup) :
    (_validate_responder name params routeArgs = .ok ()
      ↔ C4Conditions params routeArgs) ∧
    (∀ req resp rest, params = req :: resp :: rest →
      posAssignable req = true → posAssignable resp = true →
      symmDiff (routeArgs.map RouteArg.id)
          ((kwOnlyParams rest).map SigParam.name) ≠ [] →
      ∃ d, _validate_responder name params routeArgs
          = .error (.nameMismatch d) ∧
        ∀ s, s ∈ d ↔
          ((s ∈ routeArgs.map RouteArg.id ∧
              s ∉ (kwOnlyParams rest).map SigParam.name) ∨
            (s ∈ (kwOnlyParams rest).map SigParam.name ∧
              s ∉ routeArgs.map RouteArg.id))) ∧
    (∀ req resp rest, params = req :: resp :: rest →
      posAssignable req = true → posAssignable resp = true →
      (∀ s, s ∈ (kwOnlyParams rest).map SigParam.name ↔
          s ∈ routeArgs.map RouteArg.id) →
      (∀ p ∈ kwOnlyParams rest, p.hasDefault = false) →
      (∀ p ∈ kwOnlyParams rest, p.anno ≠ none) →
      (_validate_responder name params routeArgs = .ok () ∨
        ∃ a ∈ routeArgs, ∃ p ∈ kwOnlyParams rest, p.name = a.id ∧
          p.anno ≠ some a.anno ∧
          _validate_responder name params routeArgs
            = .error (.annoMismatch a.id))) := by
  refine ⟨?_, ?_, ?_⟩
  · match params, hpn with
    | [], _ => simp [_validate_responder, hname, C4Conditions]
    | [p], _ => simp [_validate_responder, hname, C4Conditions]
    | req :: resp :: rest, hpn =>
      by_cases hreq : posAssignable req = true
      · by_cases hresp : posAssignable resp = true
        · rw [validate_unfold name req resp rest routeArgs hname hreq hresp]
          by_cases hd : symmDiff (routeArgs.map (·.id))
              ((kwOnlyParams rest).map (·.name)) = []
          · rw [if_neg (by simp [(sortStrings_eq_nil_iff _).mpr hd])]
            have hset := (symmDiff_eq_nil_iff _ _).mp hd
            have hnodup : ((kwOnlyParams rest).map SigParam.name).Nodup := by
              have h1 : (rest.map SigParam.name).Nodup :=
                (List.nodup_cons.mp ((List.nodup_cons.mp hpn).2)).2
              exact h1.sublist (List.Sublist.map _ (List.filter_sublist _))
            simp only [C4Conditions, hreq, hresp, true_and]
            rw [checkArgs_ok_iff,
              find_forall_bridge _ _ hnodup (fun s => (hset s).symm)]
            constructor
            · intro h
              exact ⟨fun s => (hset s).symm, h⟩
            · intro h
              exact h.2
          · rw [if_pos (by
              simpa using fun hh => hd ((sortStrings_eq_nil_iff _).mp hh))]
            simp only [C4Conditions, hreq, hresp, true_and]
            constructor
            · intro h
              exact absurd h (by simp)
            · rintro ⟨hseteq, -⟩
              exact absurd ((symmDiff_eq_nil_iff _ _).mpr
                (fun s => (hseteq s).symm)) hd
        · simp [_validate_responder, hname, hreq, hresp, C4Conditions]
      · simp [_validate_responder, hname, hreq, C4Conditions]
  · rintro req resp rest rfl hreq hresp hdm
    rw [validate_unfold name req resp rest routeArgs hname hreq hresp]
    rw [if_pos (by
      simpa using fun hh => hdm ((sortStrings_eq_nil_iff _).mp hh))]
    refine ⟨_, rfl, fun s => ?_⟩
    have hp : List.Perm (sortStrings (symmDiff (routeArgs.map (·.id))
        ((kwOnlyParams rest).map (·.name)))) (symmDiff (routeArgs.map (·.id))
        ((kwOnlyParams rest).map (·.name))) := by
      unfold sortStrings
      exact List.perm_insertionSort _ _
    rw [hp.mem_iff]
    exact mem_symmDiff_iff _ _ s
  · rintro req resp rest rfl hreq hresp hset hnd hanno
    have hd : symmDiff (routeArgs.map (·.id))
        ((kwOnlyParams rest).map (·.name)) = [] :=
      (symmDiff_eq_nil_iff _ _).mpr (fun s => (hset s).symm)
    rw [validate_unfold name req resp rest routeArgs hname hreq hresp]
    rw [if_neg (by simp [(sortStrings_eq_nil_iff _).mpr hd])]
    exact checkArgs_ok_or_mismatch (kwOnlyParams rest) routeArgs
      (fun a ha => find_isSome_of_mem _ _
        ((hset a.id).mpr (List.mem_map_of_mem _ ha)))
      hnd hanno

theorem C4_witness :
    pyStartswith "on_get" "on_" = true ∧
    ((([⟨"req", .posOrKw, false, none⟩, ⟨"resp", .posOrKw, false, none⟩,
        ⟨"x", .kwOnly, false, some "int"⟩] : List SigParam).map
        SigParam.name).Nodup) ∧
    _validate_responder "on_get"
      [⟨"req", .posOrKw, false, none⟩, ⟨"resp", .posOrKw, false, none⟩,
        ⟨"x", .kwOnly, false, some "int"⟩] [⟨"x", "int"⟩] = .ok () ∧
    (_validate_responder "on_get"
        [⟨"req", .posOrKw, false, none⟩, ⟨"resp", .posOrKw, false, none⟩,
          ⟨"x", .kwOnly, false, some "int"⟩] [⟨"x", "int"⟩] = .ok () ↔
      C4Conditions
        [⟨"req", .posOrKw, false, none⟩, ⟨"resp", .posOrKw, false, none⟩,
          ⟨"x", .kwOnly, false, some "int"⟩] [⟨"x", "int"⟩]) :=
  ⟨by decide, by decide, rfl,
    (C4_strict_validation "on_get"
      [⟨"req", .posOrKw, false, none⟩, ⟨"resp", .posOrKw, false, none⟩,
        ⟨"x", .kwOnly, false, some "int"⟩] [⟨"x", "int"⟩]
      (by decide) (by decide)).1⟩

/-! ## Route template model

Modelled from the spec: the modules `param.py`, `route.py` and
`template.py` (the parameter type system, Route/Segment model and template
compiler/parser of spec sections 3, 4.1-4.3 and 6) are not part of the
provided sources; the definitions below follow the specification's grammar
and rendering rules. Parameters carry integer constraints as integers
(rendered in decimal) and float constraints as their decimal literal text
(the result of Python `str` on the number, stored verbatim). -/

/-- Decimal digit character for a value below 10. -/
def digitChar (d : Nat) : Char := Char.ofNat (48 + d)

/-- Numeric value of a decimal digit character. -/
def digitVal (c : Char) : Nat := c.toNat - 48

/-- Test for an ASCII decimal digit. -/
def isDigitCh (c : Char) : Bool := 48 ≤ c.toNat && c.toNat ≤ 57

/-- Big-endian digit characters of a positive number, most significant
first, prepended to `acc` (fuel-based so that it reduces by computation). -/
def natTextAux : Nat → Nat → List Char → List Char
  | 0, _, acc => acc
  | fuel + 1, n, acc =>
    if n = 0 then acc
    else natTextAux fuel (n / 10) (digitChar (n % 10) :: acc)

/-- Decimal text of a natural number, as Python `str` renders it. -/
def natText (n : Nat) : String :=
  if n = 0 then "0" else ⟨natTextAux (n + 1) n []⟩

/-- Decimal text of an integer, as Python `str` renders it. -/
def intText (i : Int) : String :=
  if i < 0 then "-" ++ natText i.natAbs else natText i.toNat

/-- Value of a big-endian list of digit characters. -/
def ofDigitsBE (ds : List Char) : Nat :=
  Nat.ofDigits 10 ((ds.map digitVal).reverse)

/-- Parse a canonical decimal natural: non-empty, all digits, no leading
zero except for the single digit `0` itself. -/
def parseNatCanon (ds : List Char) : Option Nat :=
  if ds = [] then none
  else if ¬ ds.all isDigitCh then none
  else if ds.head? = some (digitChar 0) ∧ ds.length ≠ 1 then none
  else some (ofDigitsBE ds)

/-- Parse a canonical decimal integer (an optional minus sign; `-0` is
rejected as non-canonical, since Python never prints it). -/
def parseIntCanon (ds : List Char) : Option Int :=
  match ds with
  | '-' :: rest =>
    (parseNatCanon rest).bind fun n =>
      if n = 0 then none else some (-(n : Int))
  | _ => (parseNatCanon ds).map fun n => (n : Int)

/-- Digits-only test for a non-empty run. -/
def isUnsignedNum (cs : List Char) : Bool :=
  let intPart := cs.takeWhile isDigitCh
  let rest := cs.dropWhile isDigitCh
  intPart ≠ [] &&
    (rest = [] ||
      (rest.head? = some '.' && rest.tail ≠ [] && rest.tail.all isDigitCh))

/-- Decimal literal test (optional minus, digits, optional fraction),
the shape of the `num` tokens of the template grammar. -/
def isNumChars (cs : List Char) : Bool :=
  match cs with
  | '-' :: rest => isUnsignedNum rest
  | _ => isUnsignedNum cs

/-- Modelled from the spec: the closed set of parameter kinds (a `Custom`
parameter delegates to the concrete parameter its factory returns, so it is
represented here by that concrete parameter). -/
inductive Param
  | str (name : String)
  | int (name : String) (dw : Option Int) (min max : Option Int)
  | float (name : String) (min max : Option String) (finite : Bool)
  | uuid (name : String)
  | dt (name : String) (format : Option String)
  | path (name : String)
deriving DecidableEq, Repr

/-- The name of a parameter. -/
def paramName : Param → String
  | .str n => n
  | .int n _ _ _ => n
  | .float n _ _ _ => n
  | .uuid n => n
  | .dt n _ => n
  | .path n => n

/-- Join argument texts with the canonical comma-space separator. -/
def joinArgsChars : List (List Char) → List Char
  | [] => []
  | [p] => p
  | p :: ps => p ++ [',', ' '] ++ joinArgsChars ps

/-- Modelled from the spec (section 4.1): the text between the braces of a
parameter's grammar fragment: the name, then for non-str kinds a colon and
the kind suffix with its optional constructor arguments in canonical
order (`digit_width` first then `min=` then `max=` for int; `min=`, `max=`,
`finite=False` for float; the double-quoted format for dt). -/
def paramBodyChars (p : Param) : List Char :=
  match p with
  | .str n => n.data
  | .int n dw mn mx =>
    let args := (dw.map (fun v => (intText v).data)).toList ++
      (mn.map (fun v => ['m', 'i', 'n', '='] ++ (intText v).data)).toList ++
      (mx.map (fun v => ['m', 'a', 'x', '='] ++ (intText v).data)).toList
    if args.isEmpty then n.data ++ [':', 'i', 'n', 't']
    else n.data ++ [':', 'i', 'n', 't', '('] ++ joinArgsChars args ++ [')']
  | .float n mn mx finite =>
    let args := (mn.map (fun v => ['m', 'i', 'n', '='] ++ v.data)).toList ++
      (mx.map (fun v => ['m', 'a', 'x', '='] ++ v.data)).toList ++
      (if finite then []
       else [['f', 'i', 'n', 'i', 't', 'e', '=', 'F', 'a', 'l', 's', 'e']])
    if args.isEmpty then n.data ++ [':', 'f', 'l', 'o', 'a', 't']
    else n.data ++ [':', 'f', 'l', 'o', 'a', 't', '('] ++
      joinArgsChars args ++ [')']
  | .uuid n => n.data ++ [':', 'u', 'u', 'i', 'd']
  | .dt n none => n.data ++ [':', 'd', 't']
  | .dt n (some f) =>
    n.data ++ [':', 'd', 't', '('] ++ '"' :: f.data ++ ['"', ')']
  | .path n => n.data ++ [':', 'p', 'a', 't', 'h']

/-- The grammar fragment itself: the body wrapped in braces. -/
def fragChars (p : Param) : List Char :=
  '\x7b' :: paramBodyChars p ++ ['\x7d']

/-- Parse failures of the template parser (spec section 4.3: unbalanced
braces, malformed parameter, duplicate parameter name). The `fuel`
constructor is unreachable when the parser is run with enough fuel. -/
inductive PErr
  | unbalanced
  | badParam
  | dupName
  | fuel
deriving DecidableEq, Repr

/-- A chunk of a segment: a literal text span or a parameter. -/
inductive Chunk
  | lit (text : List Char)
  | par (p : Param)
deriving DecidableEq, Repr

/-- Modelled from the spec: a Segment is an ordered sequence of chunks. -/
abbrev RSegment := List Chunk

/-- Modelled from the spec: a Route is an ordered sequence of Segments. -/
abbrev Route := List RSegment

/-- Rendered text of one chunk (literal verbatim, parameter fragment). -/
def renderChunk : Chunk → List Char
  | .lit t => t
  | .par p => fragChars p

/-- Rendered text of a segment: its chunks concatenated, no separator. -/
def renderSeg (seg : RSegment) : List Char :=
  seg.flatMap renderChunk

/-- Join piece texts with `/`. -/
def joinSlashChars : List (List Char) → List Char
  | [] => []
  | [p] => p
  | p :: ps => p ++ '/' :: joinSlashChars ps

/-- Modelled from the spec: `compile(route)`, the canonical template
string: segments rendered and joined with `/`. -/
def compileRoute (r : Route) : String :=
  ⟨joinSlashChars (r.map renderSeg)⟩

/-- Split on `/` (Python `str.split("/")`): always at least one piece. -/
def splitSlash : List Char → List (List Char)
  | [] => [[]]
  | c :: rest =>
    if c = '/' then [] :: splitSlash rest
    else
      match splitSlash rest with
      | [] => [[c]]
      | p :: ps => (c :: p) :: ps

/-- Split constructor-argument text on the canonical comma-space. -/
def splitArgs : List Char → List (List Char)
  | [] => [[]]
  | ',' :: ' ' :: rest => [] :: splitArgs rest
  | c :: rest =>
    match splitArgs rest with
    | [] => [[c]]
    | p :: ps => (c :: p) :: ps

/-- Strip an expected literal from the front of a text. -/
def stripPre : List Char → List Char → Option (List Char)
  | [], cs => some cs
  | _ :: _, [] => none
  | p :: ps, c :: cs => if c = p then stripPre ps cs else none

/-- Parse a `min=` integer constraint argument. -/
def parseMinInt (part : List Char) : Option Int :=
  (stripPre ['m', 'i', 'n', '='] part).bind parseIntCanon

/-- Parse a `max=` integer constraint argument. -/
def parseMaxInt (part : List Char) : Option Int :=
  (stripPre ['m', 'a', 'x', '='] part).bind parseIntCanon

/-- Parse `int(...)` arguments: optional digit width first, then optional
`min=`, then optional `max=`, at least one present. -/
def parseIntArgs (cs : List Char) :
    Option (Option Int × Option Int × Option Int) :=
  match splitArgs cs with
  | [p] =>
    ((parseIntCanon p).map fun dw => (some dw, (none : Option Int),
      (none : Option Int))) <|>
    ((parseMinInt p).map fun mn => ((none : Option Int), some mn,
      (none : Option Int))) <|>
    ((parseMaxInt p).map fun mx => ((none : Option Int),
      (none : Option Int), some mx))
  | [p, q] =>
    (do
      let dw ← parseIntCanon p
      let mn ← parseMinInt q
      pure (some dw, some mn, (none : Option Int))) <|>
    (do
      let dw ← parseIntCanon p
      let mx ← parseMaxInt q
      pure (some dw, (none : Option Int), some mx)) <|>
    (do
      let mn ← parseMinInt p
      let mx ← parseMaxInt q
      pure ((none : Option Int), some mn, some mx))
  | [p, q, t] => do
    let dw ← parseIntCanon p
    let mn ← parseMinInt q
    let mx ← parseMaxInt t
    pure (some dw, some mn, some mx)
  | _ => none

/-- Parse a `min=` float constraint argument (stored as its literal text). -/
def parseMinNum (part : List Char) : Option String :=
  (stripPre ['m', 'i', 'n', '='] part).bind fun v =>
    if isNumChars v then some ⟨v⟩ else none

/-- Parse a `max=` float constraint argument. -/
def parseMaxNum (part : List Char) : Option String :=
  (stripPre ['m', 'a', 'x', '='] part).bind fun v =>
    if isNumChars v then some ⟨v⟩ else none

/-- Parse `float(...)` arguments: optional `min=`, `max=`, `finite=False`
in that order, at least one present. -/
def parseFloatArgs (cs : List Char) :
    Option (Option String × Option String × Bool) :=
  match splitArgs cs with
  | [p] =>
    ((parseMinNum p).map fun mn => (some mn, (none : Option String),
      true)) <|>
    ((parseMaxNum p).map fun mx => ((none : Option String), some mx,
      true)) <|>
    (if p = ['f', 'i', 'n', 'i', 't', 'e', '=', 'F', 'a', 'l', 's', 'e'] then
      some ((none : Option String), (none : Option String), false)
    else none)
  | [p, q] =>
    (do
      let mn ← parseMinNum p
      let mx ← parseMaxNum q
      pure (some mn, some mx, true)) <|>
    (do
      let mn ← parseMinNum p
      if q = ['f', 'i', 'n', 'i', 't', 'e', '=', 'F', 'a', 'l', 's', 'e'] then
        pure (some mn, (none : Option String), false)
      else none) <|>
    (do
      let mx ← parseMaxNum p
      if q = ['f', 'i', 'n', 'i', 't', 'e', '=', 'F', 'a', 'l', 's', 'e'] then
        pure ((none : Option String), some mx, false)
      else none)
  | [p, q, t] => do
    let mn ← parseMinNum p
    let mx ← parseMaxNum q
    if t = ['f', 'i', 'n', 'i', 't', 'e', '=', 'F', 'a', 'l', 's', 'e'] then pure (some mn, some mx, false)
    else none
  | _ => none

/-- Parse the kind suffix of a parameter body (after the colon). -/
def parseKind (n : String) (kind : List Char) : Except PErr Param :=
  if kind = ['i', 'n', 't'] then .ok (.int n none none none)
  else if kind = ['f', 'l', 'o', 'a', 't'] then .ok (.float n none none true)
  else if kind = ['u', 'u', 'i', 'd'] then .ok (.uuid n)
  else if kind = ['p', 'a', 't', 'h'] then .ok (.path n)
  else if kind = ['d', 't'] then .ok (.dt n none)
  else
    match stripPre ['i', 'n', 't', '('] kind with
    | some r =>
      match r.getLast? with
      | some ')' =>
        match parseIntArgs r.dropLast with
        | some (dw, mn, mx) => .ok (.int n dw mn mx)
        | none => .error .badParam
      | _ => .error .badParam
    | none =>
      match stripPre ['f', 'l', 'o', 'a', 't', '('] kind with
      | some r =>
        match r.getLast? with
        | some ')' =>
          match parseFloatArgs r.dropLast with
          | some (mn, mx, fin) => .ok (.float n mn mx fin)
          | none => .error .badParam
        | _ => .error .badParam
      | none =>
        match stripPre ['d', 't', '('] kind with
        | some r =>
          match r with
          | '"' :: r2 =>
            let f := r2.takeWhile (fun c => c != '"')
            let rest := r2.dropWhile (fun c => c != '"')
            if rest = ['"', ')'] then .ok (.dt n (some ⟨f⟩))
            else .error .badParam
          | _ => .error .badParam
        | none => .error .badParam

/-- Parse a parameter body (between braces): a name, optionally followed by
a colon and a kind. -/
def parseParamBody (body : List Char) : Except PErr Param :=
  let name := body.takeWhile (fun c => c != ':')
  let rest := body.dropWhile (fun c => c != ':')
  if name = [] then .error .badParam
  else
    match rest with
    | [] => .ok (.str ⟨name⟩)
    | _ :: kind => parseKind ⟨name⟩ kind

/-- Prepend a literal character to a chunk list, merging with a leading
literal chunk. -/
def consLit (c : Char) : List Chunk → List Chunk
  | .lit t :: rest => .lit (c :: t) :: rest
  | chunks => .lit [c] :: chunks

/-- Fuel-based segment parser: literal spans and brace-delimited parameter
spans alternate; a stray closing brace or an unterminated or nested opening
brace is unbalanced. -/
def parseChunksF : Nat → List Char → Except PErr (List Chunk)
  | 0, _ => .error .fuel
  | _ + 1, [] => .ok []
  | fuel + 1, c :: r =>
    if c = '\x7d' then .error .unbalanced
    else if c = '\x7b' then
      let body := r.takeWhile (fun x => x != '\x7d')
      let rest := r.dropWhile (fun x => x != '\x7d')
      match rest with
      | _ :: tail =>
        if body.contains '\x7b' then .error .unbalanced
        else
          match parseParamBody body with
          | .error e => .error e
          | .ok p =>
            match parseChunksF fuel tail with
            | .error e => .error e
            | .ok chunks => .ok (.par p :: chunks)
      | [] => .error .unbalanced
    else
      match parseChunksF fuel r with
      | .error e => .error e
      | .ok chunks => .ok (consLit c chunks)

/-- Segment parser with sufficient fuel. -/
def parseChunks (cs : List Char) : Except PErr (List Chunk) :=
  parseChunksF (cs.length + 1) cs

/-- Parse every `/`-piece of a template. -/
def parsePieces : List (List Char) → Except PErr Route
  | [] => .ok []
  | p :: ps =>
    match parseChunks p with
    | .error e => .error e
    | .ok seg =>
      match parsePieces ps with
      | .error e => .error e
      | .ok segs => .ok (seg :: segs)

/-- Name of the parameter of a chunk, when it is one. -/
def chunkName : Chunk → Option String
  | .par p => some (paramName p)
  | .lit _ => none

/-- All parameter names of a route, in order. -/
def routeNames (r : Route) : List String :=
  r.flatMap fun seg => seg.filterMap chunkName

/-- Modelled from the spec: `parse(text)`: split on `/`, parse each piece
into a segment, and reject duplicate parameter names. -/
def parseRoute (t : String) : Except PErr Route :=
  match parsePieces (splitSlash t.data) with
  | .error e => .error e
  | .ok segs =>
    if (routeNames segs).Nodup then .ok segs else .error .dupName

/-! ## Numeral lemmas: decimal rendering and canonical parsing invert -/

theorem toNat_ofNat_valid (n : Nat) (h : n.isValidChar) :
    (Char.ofNat n).toNat = n := by
  simp [Char.ofNat, h, Char.toNat, Char.ofNatAux, UInt32.toNat,
    BitVec.toNat_ofNatLt]

theorem digitChar_toNat (d : Nat) (h : d < 10) :
    (digitChar d).toNat = 48 + d :=
  toNat_ofNat_valid (48 + d) (Or.inl (by omega))

theorem isDigitCh_digitChar (d : Nat) (h : d < 10) :
    isDigitCh (digitChar d) = true := by
  simp [isDigitCh, digitChar_toNat d h]
  omega

theorem digitVal_digitChar (d : Nat) (h : d < 10) :
    digitVal (digitChar d) = d := by
  simp [digitVal, digitChar_toNat d h]

theorem digitChar_digitVal (c : Char) (h : isDigitCh c = true) :
    digitChar (digitVal c) = c := by
  simp only [isDigitCh, Bool.and_eq_true, decide_eq_true_eq] at h
  have h1 : 48 + digitVal c = c.toNat := by
    simp only [digitVal]
    omega
  rw [digitChar, h1, Char.ofNat_toNat]

theorem digitChar_inj (d e : Nat) (hd : d < 10) (he : e < 10)
    (h : digitChar d = digitChar e) : d = e := by
  have := congrArg Char.toNat h
  rw [digitChar_toNat d hd, digitChar_toNat e he] at this
  omega

theorem natTextAux_eq (fuel : Nat) : ∀ (n : Nat) (acc : List Char),
    n ≤ fuel →
    natTextAux fuel n acc = ((Nat.digits 10 n).map digitChar).reverse ++ acc := by
  induction fuel with
  | zero =>
    intro n acc h
    have hn : n = 0 := by omega
    subst hn
    simp [natTextAux]
  | succ fuel ih =>
    intro n acc h
    by_cases hn : n = 0
    · subst hn
      simp [natTextAux]
    · rw [natTextAux, if_neg hn,
        ih (n / 10) _ (by
          have := Nat.div_lt_self (Nat.pos_of_ne_zero hn) (by norm_num : 1 < 10)
          omega),
        Nat.digits_def' (by norm_num : 1 < 10) (Nat.pos_of_ne_zero hn)]
      simp

theorem natText_data_pos (n : Nat) (hn : n ≠ 0) :
    (natText n).data = ((Nat.digits 10 n).map digitChar).reverse := by
  unfold natText
  rw [if_neg hn]
  have := natTextAux_eq (n + 1) n [] (by omega)
  simpa using this

theorem natText_all_digits (n : Nat) :
    ∀ c ∈ (natText n).data, isDigitCh c = true := by
  by_cases hn : n = 0
  · subst hn
    intro c hc
    simp only [natText, if_pos rfl] at hc
    have : c = '0' := by simpa using hc
    subst this
    rfl
  · rw [natText_data_pos n hn]
    intro c hc
    rw [List.mem_reverse, List.mem_map] at hc
    obtain ⟨d, hd, rfl⟩ := hc
    exact isDigitCh_digitChar d (Nat.digits_lt_base (by norm_num) hd)

theorem parseNatCanon_natText (n : Nat) :
    parseNatCanon (natText n).data = some n := by
  by_cases hn : n = 0
  · subst hn
    rfl
  · have hdata := natText_data_pos n hn
    have hne : (Nat.digits 10 n) ≠ [] := Nat.digits_ne_nil_iff_ne_zero.mpr hn
    have hnil : (natText n).data ≠ [] := by
      rw [hdata]
      simpa using hne
    have hall : (natText n).data.all isDigitCh = true := by
      rw [List.all_eq_true]
      intro c hc
      exact natText_all_digits n c hc
    unfold parseNatCanon
    rw [if_neg hnil, if_neg (by simp [hall])]
    have hhead : ¬ ((natText n).data.head? = some (digitChar 0) ∧
        (natText n).data.length ≠ 1) := by
      rintro ⟨hh, -⟩
      rw [hdata, List.head?_reverse, List.getLast?_map] at hh
      rw [List.getLast?_eq_getLast _ hne] at hh
      have hlast := Nat.getLast_digit_ne_zero 10 hn
      simp only [Option.map_some', Option.some.injEq] at hh
      exact hlast (digitChar_inj _ _
        (Nat.digits_lt_base (by norm_num)
          (List.getLast_mem hne)) (by norm_num) hh)
    rw [if_neg hhead]
    congr 1
    unfold ofDigitsBE
    rw [hdata, List.map_reverse, List.reverse_reverse, List.map_map]
    have hmap : (Nat.digits 10 n).map (digitVal ∘ digitChar)
        = (Nat.digits 10 n).map id := by
      apply List.map_congr_left
      intro d hd
      exact digitVal_digitChar d (Nat.digits_lt_base (by norm_num) hd)
    rw [hmap, List.map_id]
    exact Nat.ofDigits_digits 10 n

theorem natText_ne_nil (n : Nat) : (natText n).data ≠ [] := by
  by_cases hn : n = 0
  · subst hn
    intro h
    simp [natText] at h
  · rw [natText_data_pos n hn]
    simpa using Nat.digits_ne_nil_iff_ne_zero.mpr hn

theorem parseIntCanon_intText (i : Int) :
    parseIntCanon (intText i).data = some i := by
  by_cases hi : i < 0
  · rw [intText, if_pos hi, String.data_append]
    show parseIntCanon ('-' :: (natText i.natAbs).data) = some i
    have hne : i.natAbs ≠ 0 := by omega
    simp only [parseIntCanon, parseNatCanon_natText, Option.some_bind]
    rw [if_neg hne]
    congr 1
    omega
  · rw [intText, if_neg hi]
    obtain ⟨c, rest, hds⟩ : ∃ c rest, (natText i.toNat).data = c :: rest := by
      cases h : (natText i.toNat).data with
      | nil => exact absurd h (natText_ne_nil _)
      | cons c rest => exact ⟨c, rest, rfl⟩
    have hc : isDigitCh c = true :=
      natText_all_digits i.toNat c (by rw [hds]; simp)
    have hcne : c ≠ '-' := by
      intro h
      subst h
      have h45 : ('-').toNat = 45 := rfl
      simp only [isDigitCh, h45, Bool.and_eq_true, decide_eq_true_eq] at hc
      omega
    rw [hds]
    unfold parseIntCanon
    split
    · rename_i heq
      injection heq with h1 h2
      exact absurd h1 hcne
    · rw [← hds, parseNatCanon_natText]
      show Option.map (fun n => n) (some ((i.toNat : Int))) = some i
      simp only [Option.map_some', Option.some.injEq]
      omega

theorem stripPre_append (pre rest : List Char) :
    stripPre pre (pre ++ rest) = some rest := by
  induction pre with
  | nil => rfl
  | cons c pre ih => simp [stripPre, ih]

theorem parseMinInt_text (v : Int) :
    parseMinInt (['m', 'i', 'n', '='] ++ (intText v).data) = some v := by
  unfold parseMinInt
  rw [stripPre_append]
  simp [parseIntCanon_intText]

theorem parseMaxInt_text (v : Int) :
    parseMaxInt (['m', 'a', 'x', '='] ++ (intText v).data) = some v := by
  unfold parseMaxInt
  rw [stripPre_append]
  simp [parseIntCanon_intText]

theorem parseMinNum_text (v : String) (h : isNumChars v.data = true) :
    parseMinNum (['m', 'i', 'n', '='] ++ v.data) = some v := by
  unfold parseMinNum
  rw [stripPre_append]
  simp [h]

theorem parseMaxNum_text (v : String) (h : isNumChars v.data = true) :
    parseMaxNum (['m', 'a', 'x', '='] ++ v.data) = some v := by
  unfold parseMaxNum
  rw [stripPre_append]
  simp [h]

/-! ## Parser structural lemmas -/

theorem takeWhile_append_all (p : Char → Bool) (l1 l2 : List Char)
    (h : ∀ x ∈ l1, p x = true) :
    (l1 ++ l2).takeWhile p = l1 ++ l2.takeWhile p := by
  induction l1 with
  | nil => rfl
  | cons c l ih =>
    simp only [List.cons_append, List.takeWhile_cons]
    rw [h c (by simp)]
    simp [ih (fun x hx => h x (by simp [hx]))]

theorem dropWhile_append_all (p : Char → Bool) (l1 l2 : List Char)
    (h : ∀ x ∈ l1, p x = true) :
    (l1 ++ l2).dropWhile p = l2.dropWhile p := by
  induction l1 with
  | nil => rfl
  | cons c l ih =>
    simp only [List.cons_append, List.dropWhile_cons]
    rw [h c (by simp)]
    simp [ih (fun x hx => h x (by simp [hx]))]

theorem length_dropWhile_le (p : Char → Bool) (l : List Char) :
    (l.dropWhile p).length ≤ l.length := by
  induction l with
  | nil => simp
  | cons c r ih =>
    rw [List.dropWhile_cons]
    by_cases h : p c
    · simp only [h, if_true, List.length_cons]
      omega
    · simp [h]

theorem parseChunksF_fuel (f : Nat) : ∀ (f' : Nat) (cs : List Char),
    cs.length < f → cs.length < f' →
    parseChunksF f cs = parseChunksF f' cs := by
  induction f with
  | zero =>
    intro f' cs h _
    exact absurd h (Nat.not_lt_zero _)
  | succ f ih =>
    intro f' cs hf hf'
    match f', cs with
    | 0, cs => exact absurd hf' (Nat.not_lt_zero _)
    | f' + 1, [] => rfl
    | f' + 1, c :: r =>
      simp only [List.length_cons] at hf hf'
      simp only [parseChunksF]
      by_cases hc : c = '\x7d'
      · simp [hc]
      · simp only [if_neg hc]
        by_cases hb : c = '\x7b'
        · simp only [if_pos hb]
          cases hrest : r.dropWhile (fun x => x != '\x7d') with
          | nil => rfl
          | cons x tail =>
            have hlen : (r.dropWhile (fun x => x != '\x7d')).length ≤
                r.length := length_dropWhile_le _ _
            rw [hrest] at hlen
            simp only [List.length_cons] at hlen
            dsimp only
            rw [ih f' tail (by omega) (by omega)]
        · simp only [if_neg hb]
          rw [ih f' r (by omega) (by omega)]

theorem parseChunks_cons_plain (c : Char) (r : List Char)
    (hc : c ≠ '\x7d') (hb : c ≠ '\x7b') :
    parseChunks (c :: r) =
      match parseChunks r with
      | .error e => .error e
      | .ok chunks => .ok (consLit c chunks) := by
  unfold parseChunks
  simp only [List.length_cons]
  simp only [parseChunksF, if_neg hc, if_neg hb]

theorem contains_eq_false_of_forall (l : List Char) (c : Char)
    (h : ∀ x ∈ l, x ≠ c) : l.contains c = false := by
  cases hcb : List.contains l c with
  | false => rfl
  | true => exact absurd rfl (h c (List.elem_iff.mp hcb))

theorem parseChunks_brace (body tail : List Char)
    (hnb : ∀ x ∈ body, x ≠ '\x7b' ∧ x ≠ '\x7d') :
    parseChunks ('\x7b' :: body ++ '\x7d' :: tail) =
      match parseParamBody body with
      | .error e => .error e
      | .ok p =>
        match parseChunks tail with
        | .error e => .error e
        | .ok chunks => .ok (.par p :: chunks) := by
  unfold parseChunks
  simp only [List.length_cons, List.length_append]
  simp only [parseChunksF, if_neg (by decide : ¬ ('\x7b' : Char) = '\x7d'),
    if_pos rfl, if_true, List.append_eq]
  rw [takeWhile_append_all _ body ('\x7d' :: tail)
    (fun x hx => by simp [(hnb x hx).2]),
    dropWhile_append_all _ body ('\x7d' :: tail)
    (fun x hx => by simp [(hnb x hx).2])]
  simp only [List.takeWhile_cons, List.dropWhile_cons]
  norm_num
  rw [if_neg (show ¬ '\x7b' ∈ body from fun h => (hnb _ h).1 rfl)]
  cases parseParamBody body with
  | error e => rfl
  | ok p =>
    rw [parseChunksF_fuel _ (tail.length + 1) tail (by omega) (by omega)]

/-- Prepend a literal text to a chunk list, character by character. -/
def prependLit (t : List Char) (chunks : List Chunk) : List Chunk :=
  t.foldr consLit chunks

theorem parseChunks_prependLit (t : List Char)
    (ht : ∀ x ∈ t, x ≠ '\x7b' ∧ x ≠ '\x7d') (r : List Char) :
    parseChunks (t ++ r) =
      match parseChunks r with
      | .error e => .error e
      | .ok chunks => .ok (prependLit t chunks) := by
  induction t with
  | nil =>
    simp only [List.nil_append]
    cases parseChunks r <;> simp [prependLit]
  | cons c t ih =>
    rw [List.cons_append,
      parseChunks_cons_plain c (t ++ r) ((ht c (by simp)).2)
        ((ht c (by simp)).1),
      ih (fun x hx => ht x (by simp [hx]))]
    cases parseChunks r <;> simp [prependLit]

theorem renderSeg_consLit (c : Char) (chunks : List Chunk) :
    renderSeg (consLit c chunks) = c :: renderSeg chunks := by
  cases chunks with
  | nil => rfl
  | cons ch rest =>
    cases ch with
    | lit t => rfl
    | par p => rfl

theorem renderSeg_prependLit (t : List Char) (chunks : List Chunk) :
    renderSeg (prependLit t chunks) = t ++ renderSeg chunks := by
  induction t with
  | nil => rfl
  | cons c t ih =>
    unfold prependLit at ih ⊢
    simp [List.foldr_cons, renderSeg_consLit, ih]
    
/-! ## Validity of routes built by the composition algebra -/

/-- A character allowed to appear verbatim in a template: not a brace and
not the segment separator. -/
def charOkB (c : Char) : Bool :=
  c != '\x7b' && c != '\x7d' && c != '/'

/-- A usable parameter name: non-empty, allowed characters, no colon. -/
def validNameChars (cs : List Char) : Bool :=
  !cs.isEmpty && cs.all fun c => charOkB c && c != ':'

/-- Name validity on strings. -/
def validName (n : String) : Bool := validNameChars n.data

/-- A float constraint value must be stored as a decimal literal. -/
def numTextOk (v : String) : Bool := isNumChars v.data

/-- A datetime format usable in a template: no quote, brace or slash. -/
def fmtOk (f : String) : Bool :=
  f.data.all fun c => charOkB c && c != '"'

/-- Validity of a parameter as produced by the composition algebra. -/
def validParam : Param → Bool
  | .str n => validName n
  | .int n _ _ _ => validName n
  | .float n mn mx _ =>
    validName n && mn.all numTextOk && mx.all numTextOk
  | .uuid n => validName n
  | .dt n f => validName n && f.all fmtOk
  | .path n => validName n

/-- Validity of a chunk: a literal must stay clear of braces and the
separator; a parameter must be valid. -/
def validChunk : Chunk → Bool
  | .lit t => t.all charOkB
  | .par p => validParam p

/-- A valid route: every chunk valid and parameter names unique (the
invariant enforced by the composition algebra). -/
def validRoute (r : Route) : Prop :=
  (∀ seg ∈ r, ∀ ch ∈ seg, validChunk ch = true) ∧ (routeNames r).Nodup

/-! ## Character class facts -/

theorem isDigitCh_ne (c k : Char) (hc : isDigitCh c = true)
    (hk : isDigitCh k = false) : c ≠ k := by
  intro he
  subst he
  simp [hc] at hk

theorem charOkB_digit (c : Char) (h : isDigitCh c = true) :
    charOkB c = true := by
  simp only [charOkB, Bool.and_eq_true, bne_iff_ne]
  exact ⟨⟨isDigitCh_ne c _ h (by decide), isDigitCh_ne c _ h (by decide)⟩,
    isDigitCh_ne c _ h (by decide)⟩

theorem digit_ne_comma (c : Char) (h : isDigitCh c = true) : c ≠ ',' :=
  isDigitCh_ne c _ h (by decide)

theorem intText_chars (v : Int) :
    ∀ c ∈ (intText v).data, isDigitCh c = true ∨ c = '-' := by
  intro c hc
  unfold intText at hc
  by_cases hv : v < 0
  · rw [if_pos hv, String.data_append, List.mem_append] at hc
    rcases hc with hc | hc
    · right
      simpa using hc
    · left
      exact natText_all_digits _ c hc
  · rw [if_neg hv] at hc
    left
    exact natText_all_digits _ c hc

theorem mem_dot_digits (l : List Char) (hh : l.head? = some '.')
    (hall : l.tail.all isDigitCh = true) :
    ∀ c ∈ l, isDigitCh c = true ∨ c = '.' := by
  cases l with
  | nil => exact fun c hc => absurd hc (List.not_mem_nil c)
  | cons x t =>
    intro c hc
    simp only [List.head?_cons, Option.some.injEq] at hh
    subst hh
    rcases List.mem_cons.mp hc with rfl | hct
    · right
      rfl
    · left
      simp only [List.tail_cons, List.all_eq_true] at hall
      exact hall c hct

theorem isUnsignedNum_chars (cs : List Char) (h : isUnsignedNum cs = true) :
    ∀ c ∈ cs, isDigitCh c = true ∨ c = '.' := by
  intro c hc
  unfold isUnsignedNum at h
  simp only [Bool.and_eq_true, Bool.or_eq_true, decide_eq_true_eq,
    ne_eq] at h
  obtain ⟨-, h2⟩ := h
  rw [← List.takeWhile_append_dropWhile (p := isDigitCh) (l := cs),
    List.mem_append] at hc
  rcases hc with hc | hc
  · left
    exact List.mem_takeWhile_imp hc
  · rcases h2 with h2 | h2
    · rw [h2] at hc
      cases hc
    · obtain ⟨⟨hh, -⟩, hall⟩ := h2
      rcases mem_dot_digits _ hh hall c hc with hd | hd
      · left
        exact hd
      · right
        exact hd

theorem isNumChars_chars (cs : List Char) (h : isNumChars cs = true) :
    ∀ c ∈ cs, isDigitCh c = true ∨ c = '.' ∨ c = '-' := by
  intro c hc
  unfold isNumChars at h
  split at h
  · rename_i rest tailv
    rcases List.mem_cons.mp hc with rfl | hct
    · right; right; rfl
    · rcases isUnsignedNum_chars tailv h c hct with hd | hd
      · left; exact hd
      · right; left; exact hd
  · rcases isUnsignedNum_chars cs h c hc with hd | hd
    · left; exact hd
    · right; left; exact hd

/-! ## splitArgs and joinArgsChars invert on comma-free parts -/

theorem splitArgs_cons (c : Char) (t : List Char) (hc : c ≠ ',') :
    splitArgs (c :: t) =
      match splitArgs t with
      | [] => [[c]]
      | p :: ps => (c :: p) :: ps := by
  rw [splitArgs.eq_def]
  split
  · rename_i heq
    cases heq
  · rename_i heq
    injection heq with h1 h2
    exact absurd h1 hc
  · rename_i chead ctail hguard heqn
    injection heqn with hx hy
    subst hx
    subst hy
    rfl

theorem splitArgs_sep (p : List Char) (h : ∀ c ∈ p, c ≠ ',')
    (rest : List Char) :
    splitArgs (p ++ ',' :: ' ' :: rest) = p :: splitArgs rest := by
  induction p with
  | nil => rfl
  | cons c t ih =>
    rw [List.cons_append, splitArgs_cons c _ (h c (by simp)),
      ih (fun x hx => h x (by simp [hx]))]

theorem splitArgs_single (p : List Char) (h : ∀ c ∈ p, c ≠ ',') :
    splitArgs p = [p] := by
  induction p with
  | nil => rfl
  | cons c t ih =>
    rw [splitArgs_cons c t (h c (by simp)),
      ih (fun x hx => h x (by simp [hx]))]

/-! ## Forward evaluation of the argument parsers on canonical fragments -/

theorem parseIntCanon_minPre (X : List Char) :
    parseIntCanon (['m', 'i', 'n', '='] ++ X) = none := rfl

theorem parseIntCanon_maxPre (X : List Char) :
    parseIntCanon (['m', 'a', 'x', '='] ++ X) = none := rfl

theorem parseMinInt_maxPre (X : List Char) :
    parseMinInt (['m', 'a', 'x', '='] ++ X) = none := rfl

theorem parseMaxInt_minPre (X : List Char) :
    parseMaxInt (['m', 'i', 'n', '='] ++ X) = none := rfl

theorem intText_comma_free (v : Int) :
    ∀ c ∈ (intText v).data, c ≠ ',' := fun c hc =>
  (intText_chars v c hc).elim (fun hd => digit_ne_comma c hd)
    (fun hd => by subst hd; decide)

theorem minIntPart_comma_free (v : Int) :
    ∀ c ∈ ['m', 'i', 'n', '='] ++ (intText v).data, c ≠ ',' := by
  intro c hc
  rcases List.mem_append.mp hc with hc | hc
  · simp only [List.mem_cons, List.not_mem_nil, or_false] at hc
    rcases hc with rfl | rfl | rfl | rfl <;> decide
  · exact intText_comma_free v c hc

theorem maxIntPart_comma_free (v : Int) :
    ∀ c ∈ ['m', 'a', 'x', '='] ++ (intText v).data, c ≠ ',' := by
  intro c hc
  rcases List.mem_append.mp hc with hc | hc
  · simp only [List.mem_cons, List.not_mem_nil, or_false] at hc
    rcases hc with rfl | rfl | rfl | rfl <;> decide
  · exact intText_comma_free v c hc

theorem joinArgsChars_cons2 (p : List Char) (q : List (List Char))
    (hq : q ≠ []) :
    joinArgsChars (p :: q) = p ++ ',' :: ' ' :: joinArgsChars q := by
  cases q with
  | nil => exact absurd rfl hq
  | cons x xs => simp [joinArgsChars, List.append_assoc]

theorem parseIntArgs_frag (dw mn mx : Option Int)
    (h : ¬(dw = none ∧ mn = none ∧ mx = none)) :
    parseIntArgs (joinArgsChars
      ((dw.map (fun v => (intText v).data)).toList ++
       (mn.map (fun v => ['m', 'i', 'n', '='] ++ (intText v).data)).toList ++
       (mx.map (fun v => ['m', 'a', 'x', '='] ++ (intText v).data)).toList))
      = some (dw, mn, mx) := by
  rcases dw with - | d <;> rcases mn with - | a <;> rcases mx with - | b
  · exact absurd ⟨rfl, rfl, rfl⟩ h
  · show parseIntArgs (joinArgsChars
      [['m', 'a', 'x', '='] ++ (intText b).data]) = _
    unfold parseIntArgs
    rw [show joinArgsChars [['m', 'a', 'x', '='] ++ (intText b).data]
        = ['m', 'a', 'x', '='] ++ (intText b).data from rfl,
      splitArgs_single _ (maxIntPart_comma_free b)]
    simp only [parseIntCanon_maxPre, parseMinInt_maxPre, parseMaxInt_text,
      parseIntCanon_minPre, parseMinInt_text, parseMaxInt_minPre,
      parseIntCanon_intText, Option.map_none', Option.map_some',
      Option.none_orElse, Option.some_orElse, Option.bind_eq_bind,
      Option.some_bind, Option.none_bind, Option.pure_def]
  · show parseIntArgs (joinArgsChars
      [['m', 'i', 'n', '='] ++ (intText a).data]) = _
    unfold parseIntArgs
    rw [show joinArgsChars [['m', 'i', 'n', '='] ++ (intText a).data]
        = ['m', 'i', 'n', '='] ++ (intText a).data from rfl,
      splitArgs_single _ (minIntPart_comma_free a)]
    simp only [parseIntCanon_maxPre, parseMinInt_maxPre, parseMaxInt_text,
      parseIntCanon_minPre, parseMinInt_text, parseMaxInt_minPre,
      parseIntCanon_intText, Option.map_none', Option.map_some',
      Option.none_orElse, Option.some_orElse, Option.bind_eq_bind,
      Option.some_bind, Option.none_bind, Option.pure_def]
  · show parseIntArgs (joinArgsChars
      [['m', 'i', 'n', '='] ++ (intText a).data,
       ['m', 'a', 'x', '='] ++ (intText b).data]) = _
    unfold parseIntArgs
    rw [joinArgsChars_cons2 _ _ (by simp),
      show joinArgsChars [['m', 'a', 'x', '='] ++ (intText b).data]
        = ['m', 'a', 'x', '='] ++ (intText b).data from rfl,
      splitArgs_sep _ (minIntPart_comma_free a) _,
      splitArgs_single _ (maxIntPart_comma_free b)]
    simp only [parseIntCanon_maxPre, parseMinInt_maxPre, parseMaxInt_text,
      parseIntCanon_minPre, parseMinInt_text, parseMaxInt_minPre,
      parseIntCanon_intText, Option.map_none', Option.map_some',
      Option.none_orElse, Option.some_orElse, Option.bind_eq_bind,
      Option.some_bind, Option.none_bind, Option.pure_def]
  · show parseIntArgs (joinArgsChars [(intText d).data]) = _
    unfold parseIntArgs
    rw [show joinArgsChars [(intText d).data] = (intText d).data from rfl,
      splitArgs_single _ (intText_comma_free d)]
    simp only [parseIntCanon_maxPre, parseMinInt_maxPre, parseMaxInt_text,
      parseIntCanon_minPre, parseMinInt_text, parseMaxInt_minPre,
      parseIntCanon_intText, Option.map_none', Option.map_some',
      Option.none_orElse, Option.some_orElse, Option.bind_eq_bind,
      Option.some_bind, Option.none_bind, Option.pure_def]
  · show parseIntArgs (joinArgsChars
      [(intText d).data, ['m', 'a', 'x', '='] ++ (intText b).data]) = _
    unfold parseIntArgs
    rw [joinArgsChars_cons2 _ _ (by simp),
      show joinArgsChars [['m', 'a', 'x', '='] ++ (intText b).data]
        = ['m', 'a', 'x', '='] ++ (intText b).data from rfl,
      splitArgs_sep _ (intText_comma_free d) _,
      splitArgs_single _ (maxIntPart_comma_free b)]
    simp only [parseIntCanon_maxPre, parseMinInt_maxPre, parseMaxInt_text,
      parseIntCanon_minPre, parseMinInt_text, parseMaxInt_minPre,
      parseIntCanon_intText, Option.map_none', Option.map_some',
      Option.none_orElse, Option.some_orElse, Option.bind_eq_bind,
      Option.some_bind, Option.none_bind, Option.pure_def]
  · show parseIntArgs (joinArgsChars
      [(intText d).data, ['m', 'i', 'n', '='] ++ (intText a).data]) = _
    unfold parseIntArgs
    rw [joinArgsChars_cons2 _ _ (by simp),
      show joinArgsChars [['m', 'i', 'n', '='] ++ (intText a).data]
        = ['m', 'i', 'n', '='] ++ (intText a).data from rfl,
      splitArgs_sep _ (intText_comma_free d) _,
      splitArgs_single _ (minIntPart_comma_free a)]
    simp only [parseIntCanon_maxPre, parseMinInt_maxPre, parseMaxInt_text,
      parseIntCanon_minPre, parseMinInt_text, parseMaxInt_minPre,
      parseIntCanon_intText, Option.map_none', Option.map_some',
      Option.none_orElse, Option.some_orElse, Option.bind_eq_bind,
      Option.some_bind, Option.none_bind, Option.pure_def]
  · show parseIntArgs (joinArgsChars
      [(intText d).data, ['m', 'i', 'n', '='] ++ (intText a).data,
       ['m', 'a', 'x', '='] ++ (intText b).data]) = _
    unfold parseIntArgs
    rw [joinArgsChars_cons2 _ _ (by simp),
      joinArgsChars_cons2 (['m', 'i', 'n', '='] ++ (intText a).data) _
        (by simp),
      show joinArgsChars [['m', 'a', 'x', '='] ++ (intText b).data]
        = ['m', 'a', 'x', '='] ++ (intText b).data from rfl,
      splitArgs_sep _ (intText_comma_free d) _,
      splitArgs_sep _ (minIntPart_comma_free a) _,
      splitArgs_single _ (maxIntPart_comma_free b)]
    simp only [parseIntCanon_maxPre, parseMinInt_maxPre, parseMaxInt_text,
      parseIntCanon_minPre, parseMinInt_text, parseMaxInt_minPre,
      parseIntCanon_intText, Option.map_none', Option.map_some',
      Option.none_orElse, Option.some_orElse, Option.bind_eq_bind,
      Option.some_bind, Option.none_bind, Option.pure_def]

theorem parseMinNum_maxPre (X : List Char) :
    parseMinNum ('m' :: 'a' :: 'x' :: '=' :: X) = none := rfl

theorem parseMaxNum_minPre (X : List Char) :
    parseMaxNum ('m' :: 'i' :: 'n' :: '=' :: X) = none := rfl

theorem parseMinNum_finite :
    parseMinNum ['f', 'i', 'n', 'i', 't', 'e', '=', 'F', 'a', 'l', 's', 'e']
      = none := rfl

theorem parseMaxNum_finite :
    parseMaxNum ['f', 'i', 'n', 'i', 't', 'e', '=', 'F', 'a', 'l', 's', 'e']
      = none := rfl

theorem parseMinNum_text' (v : String) (h : isNumChars v.data = true) :
    parseMinNum ('m' :: 'i' :: 'n' :: '=' :: v.data) = some v :=
  parseMinNum_text v h

theorem parseMaxNum_text' (v : String) (h : isNumChars v.data = true) :
    parseMaxNum ('m' :: 'a' :: 'x' :: '=' :: v.data) = some v :=
  parseMaxNum_text v h

theorem numText_comma_free (v : String) (h : numTextOk v = true) :
    ∀ c ∈ v.data, c ≠ ',' := by
  intro c hc
  rcases isNumChars_chars v.data h c hc with hd | hd | hd
  · exact digit_ne_comma c hd
  · subst hd; decide
  · subst hd; decide

theorem minNumPart_comma_free (v : String) (h : numTextOk v = true) :
    ∀ c ∈ ['m', 'i', 'n', '='] ++ v.data, c ≠ ',' := by
  intro c hc
  rcases List.mem_append.mp hc with hc | hc
  · simp only [List.mem_cons, List.not_mem_nil, or_false] at hc
    rcases hc with rfl | rfl | rfl | rfl <;> decide
  · exact numText_comma_free v h c hc

theorem maxNumPart_comma_free (v : String) (h : numTextOk v = true) :
    ∀ c ∈ ['m', 'a', 'x', '='] ++ v.data, c ≠ ',' := by
  intro c hc
  rcases List.mem_append.mp hc with hc | hc
  · simp only [List.mem_cons, List.not_mem_nil, or_false] at hc
    rcases hc with rfl | rfl | rfl | rfl <;> decide
  · exact numText_comma_free v h c hc

theorem finLit_comma_free :
    ∀ c ∈ ['f', 'i', 'n', 'i', 't', 'e', '=', 'F', 'a', 'l', 's', 'e'],
      c ≠ ',' := by decide

theorem parseFloatArgs_frag (mn mx : Option String) (fin : Bool)
    (hmn : mn.all numTextOk = true) (hmx : mx.all numTextOk = true)
    (h : ¬(mn = none ∧ mx = none ∧ fin = true)) :
    parseFloatArgs (joinArgsChars
      ((mn.map (fun v => ['m', 'i', 'n', '='] ++ v.data)).toList ++
       (mx.map (fun v => ['m', 'a', 'x', '='] ++ v.data)).toList ++
       (if fin then []
        else [['f', 'i', 'n', 'i', 't', 'e', '=', 'F', 'a', 'l', 's', 'e']])))
      = some (mn, mx, fin) := by
  rcases mn with - | a <;> rcases mx with - | b <;> cases fin
  · show parseFloatArgs (joinArgsChars
      [['f', 'i', 'n', 'i', 't', 'e', '=', 'F', 'a', 'l', 's', 'e']]) = _
    unfold parseFloatArgs
    rw [show joinArgsChars
        [['f', 'i', 'n', 'i', 't', 'e', '=', 'F', 'a', 'l', 's', 'e']]
        = ['f', 'i', 'n', 'i', 't', 'e', '=', 'F', 'a', 'l', 's', 'e']
        from rfl,
      splitArgs_single _ finLit_comma_free]
    simp [parseMinNum_finite, parseMaxNum_finite]
  · exact absurd ⟨rfl, rfl, rfl⟩ h
  · simp only [Option.all_some] at hmx
    show parseFloatArgs (joinArgsChars
      [['m', 'a', 'x', '='] ++ b.data,
       ['f', 'i', 'n', 'i', 't', 'e', '=', 'F', 'a', 'l', 's', 'e']]) = _
    unfold parseFloatArgs
    rw [joinArgsChars_cons2 _ _ (by simp),
      show joinArgsChars
        [['f', 'i', 'n', 'i', 't', 'e', '=', 'F', 'a', 'l', 's', 'e']]
        = ['f', 'i', 'n', 'i', 't', 'e', '=', 'F', 'a', 'l', 's', 'e']
        from rfl,
      splitArgs_sep _ (maxNumPart_comma_free b hmx) _,
      splitArgs_single _ finLit_comma_free]
    simp [parseMinNum_maxPre, parseMaxNum_text' b hmx]
  · simp only [Option.all_some] at hmx
    show parseFloatArgs (joinArgsChars [['m', 'a', 'x', '='] ++ b.data]) = _
    unfold parseFloatArgs
    rw [show joinArgsChars [['m', 'a', 'x', '='] ++ b.data]
        = ['m', 'a', 'x', '='] ++ b.data from rfl,
      splitArgs_single _ (maxNumPart_comma_free b hmx)]
    simp [parseMinNum_maxPre, parseMaxNum_text' b hmx]
  · simp only [Option.all_some] at hmn
    show parseFloatArgs (joinArgsChars
      [['m', 'i', 'n', '='] ++ a.data,
       ['f', 'i', 'n', 'i', 't', 'e', '=', 'F', 'a', 'l', 's', 'e']]) = _
    unfold parseFloatArgs
    rw [joinArgsChars_cons2 _ _ (by simp),
      show joinArgsChars
        [['f', 'i', 'n', 'i', 't', 'e', '=', 'F', 'a', 'l', 's', 'e']]
        = ['f', 'i', 'n', 'i', 't', 'e', '=', 'F', 'a', 'l', 's', 'e']
        from rfl,
      splitArgs_sep _ (minNumPart_comma_free a hmn) _,
      splitArgs_single _ finLit_comma_free]
    simp [parseMinNum_text' a hmn, parseMaxNum_finite]
  · simp only [Option.all_some] at hmn
    show parseFloatArgs (joinArgsChars [['m', 'i', 'n', '='] ++ a.data]) = _
    unfold parseFloatArgs
    rw [show joinArgsChars [['m', 'i', 'n', '='] ++ a.data]
        = ['m', 'i', 'n', '='] ++ a.data from rfl,
      splitArgs_single _ (minNumPart_comma_free a hmn)]
    simp [parseMinNum_text' a hmn]
  · simp only [Option.all_some] at hmn hmx
    show parseFloatArgs (joinArgsChars
      [['m', 'i', 'n', '='] ++ a.data, ['m', 'a', 'x', '='] ++ b.data,
       ['f', 'i', 'n', 'i', 't', 'e', '=', 'F', 'a', 'l', 's', 'e']]) = _
    unfold parseFloatArgs
    rw [joinArgsChars_cons2 _ _ (by simp),
      joinArgsChars_cons2 (['m', 'a', 'x', '='] ++ b.data) _ (by simp),
      show joinArgsChars
        [['f', 'i', 'n', 'i', 't', 'e', '=', 'F', 'a', 'l', 's', 'e']]
        = ['f', 'i', 'n', 'i', 't', 'e', '=', 'F', 'a', 'l', 's', 'e']
        from rfl,
      splitArgs_sep _ (minNumPart_comma_free a hmn) _,
      splitArgs_sep _ (maxNumPart_comma_free b hmx) _,
      splitArgs_single _ finLit_comma_free]
    simp [parseMinNum_text' a hmn, parseMaxNum_text' b hmx,
      parseMaxNum_finite]
  · simp only [Option.all_some] at hmn hmx
    show parseFloatArgs (joinArgsChars
      [['m', 'i', 'n', '='] ++ a.data, ['m', 'a', 'x', '='] ++ b.data]) = _
    unfold parseFloatArgs
    rw [joinArgsChars_cons2 _ _ (by simp),
      show joinArgsChars [['m', 'a', 'x', '='] ++ b.data]
        = ['m', 'a', 'x', '='] ++ b.data from rfl,
      splitArgs_sep _ (minNumPart_comma_free a hmn) _,
      splitArgs_single _ (maxNumPart_comma_free b hmx)]
    simp [parseMinNum_text' a hmn, parseMaxNum_text' b hmx]

/-! ## Forward evaluation of the parameter-body parser on fragments -/

theorem validName_ne_nil (n : String) (h : validName n = true) :
    n.data ≠ [] := by
  simp only [validName, validNameChars, Bool.and_eq_true,
    Bool.not_eq_true'] at h
  intro he
  rw [he] at h
  simp [List.isEmpty] at h

theorem validName_chars (n : String) (h : validName n = true) :
    ∀ c ∈ n.data, charOkB c = true ∧ c ≠ ':' := by
  simp only [validName, validNameChars, Bool.and_eq_true,
    List.all_eq_true, bne_iff_ne] at h
  intro c hc
  exact ⟨(h.2 c hc).1, (h.2 c hc).2⟩

theorem getLast?_snoc (l : List Char) (a : Char) :
    (l ++ [a]).getLast? = some a := by
  simp

theorem dropLast_snoc (l : List Char) (a : Char) :
    (l ++ [a]).dropLast = l := by
  simp

theorem parseParamBody_split (n : String) (hn : validName n = true)
    (kindTail : List Char) :
    parseParamBody (n.data ++ ':' :: kindTail) = parseKind n kindTail := by
  unfold parseParamBody
  rw [takeWhile_append_all _ n.data (':' :: kindTail)
      (fun c hc => by simp [(validName_chars n hn c hc).2]),
    dropWhile_append_all _ n.data (':' :: kindTail)
      (fun c hc => by simp [(validName_chars n hn c hc).2])]
  simp only [List.takeWhile_cons, List.dropWhile_cons, bne_self_eq_false,
    Bool.false_eq_true, if_false, List.append_nil]
  rw [if_neg (by simpa using validName_ne_nil n hn)]

theorem parseParamBody_str (n : String) (hn : validName n = true) :
    parseParamBody n.data = .ok (.str n) := by
  unfold parseParamBody
  have h1 : n.data.takeWhile (fun c => c != ':') = n.data := by
    have := takeWhile_append_all (fun c => c != ':') n.data []
      (fun c hc => by simp [(validName_chars n hn c hc).2])
    simpa using this
  have h2 : n.data.dropWhile (fun c => c != ':') = [] := by
    have := dropWhile_append_all (fun c => c != ':') n.data []
      (fun c hc => by simp [(validName_chars n hn c hc).2])
    simpa using this
  rw [h1, h2, if_neg (by simpa using validName_ne_nil n hn)]

theorem parseKind_intArgs (n : String) (dw mn mx : Option Int)
    (h : ¬(dw = none ∧ mn = none ∧ mx = none)) :
    parseKind n (['i', 'n', 't', '('] ++ (joinArgsChars
      ((dw.map (fun v => (intText v).data)).toList ++
       (mn.map (fun v => ['m', 'i', 'n', '='] ++ (intText v).data)).toList ++
       (mx.map (fun v => ['m', 'a', 'x', '='] ++ (intText v).data)).toList)
      ++ [')'])) = .ok (.int n dw mn mx) := by
  unfold parseKind
  rw [if_neg (by simp), if_neg (by simp), if_neg (by simp),
    if_neg (by simp), if_neg (by simp), stripPre_append]
  dsimp only
  rw [getLast?_snoc, dropLast_snoc]
  rw [parseIntArgs_frag dw mn mx h]
  rfl

theorem parseKind_floatArgs (n : String) (mn mx : Option String)
    (fin : Bool) (hmn : mn.all numTextOk = true)
    (hmx : mx.all numTextOk = true)
    (h : ¬(mn = none ∧ mx = none ∧ fin = true)) :
    parseKind n (['f', 'l', 'o', 'a', 't', '('] ++ (joinArgsChars
      ((mn.map (fun v => ['m', 'i', 'n', '='] ++ v.data)).toList ++
       (mx.map (fun v => ['m', 'a', 'x', '='] ++ v.data)).toList ++
       (if fin then []
        else [['f', 'i', 'n', 'i', 't', 'e', '=', 'F', 'a', 'l', 's', 'e']]))
      ++ [')'])) = .ok (.float n mn mx fin) := by
  unfold parseKind
  rw [if_neg (by simp), if_neg (by simp), if_neg (by simp),
    if_neg (by simp), if_neg (by simp)]
  rw [show stripPre ['i', 'n', 't', '('] (['f', 'l', 'o', 'a', 't', '('] ++
      (joinArgsChars
        ((mn.map (fun v => ['m', 'i', 'n', '='] ++ v.data)).toList ++
         (mx.map (fun v => ['m', 'a', 'x', '='] ++ v.data)).toList ++
         (if fin then []
          else [['f', 'i', 'n', 'i', 't', 'e', '=', 'F', 'a', 'l', 's',
            'e']])) ++ [')'])) = none from rfl,
    stripPre_append]
  dsimp only
  rw [getLast?_snoc, dropLast_snoc]
  rw [parseFloatArgs_frag mn mx fin hmn hmx h]
  rfl

theorem parseKind_dtFmt (n : String) (f : String) (hf : fmtOk f = true) :
    parseKind n (['d', 't', '('] ++ ('"' :: f.data ++ ['"', ')']))
      = .ok (.dt n (some f)) := by
  unfold parseKind
  rw [if_neg (by simp), if_neg (by simp), if_neg (by simp),
    if_neg (by simp), if_neg (by simp)]
  rw [show stripPre ['i', 'n', 't', '(']
      (['d', 't', '('] ++ ('"' :: f.data ++ ['"', ')'])) = none from rfl]
  rw [show stripPre ['f', 'l', 'o', 'a', 't', '(']
      (['d', 't', '('] ++ ('"' :: f.data ++ ['"', ')'])) = none from rfl]
  rw [stripPre_append]
  dsimp only
  have hfc : ∀ c ∈ f.data, (c != '"') = true := by
    intro c hc
    simp only [fmtOk, List.all_eq_true, Bool.and_eq_true] at hf
    exact (hf c hc).2
  have h1 : List.dropWhile (fun c => c != '"') (f.data ++ ['"', ')'])
      = ['"', ')'] := by
    rw [dropWhile_append_all _ f.data ['"', ')'] hfc]
    rfl
  have h2 : List.takeWhile (fun c => c != '"') (f.data ++ ['"', ')'])
      = f.data := by
    rw [takeWhile_append_all _ f.data ['"', ')'] hfc]
    simp
  simp [h1, h2]

theorem intArgs_isEmpty (dw mn mx : Option Int) :
    ((dw.map (fun v => (intText v).data)).toList ++
     (mn.map (fun v => ['m', 'i', 'n', '='] ++ (intText v).data)).toList ++
     (mx.map (fun v => ['m', 'a', 'x', '='] ++ (intText v).data)).toList
     ).isEmpty = true ↔ (dw = none ∧ mn = none ∧ mx = none) := by
  rcases dw with - | d <;> rcases mn with - | a <;> rcases mx with - | b <;>
    simp

theorem floatArgs_isEmpty (mn mx : Option String) (fin : Bool) :
    ((mn.map (fun v => ['m', 'i', 'n', '='] ++ v.data)).toList ++
     (mx.map (fun v => ['m', 'a', 'x', '='] ++ v.data)).toList ++
     (if fin then []
      else [['f', 'i', 'n', 'i', 't', 'e', '=', 'F', 'a', 'l', 's', 'e']])
     ).isEmpty = true ↔ (mn = none ∧ mx = none ∧ fin = true) := by
  rcases mn with - | a <;> rcases mx with - | b <;> cases fin <;> simp

theorem parseParamBody_frag (p : Param) (hv : validParam p = true) :
    parseParamBody (paramBodyChars p) = .ok p := by
  cases p with
  | str n => exact parseParamBody_str n hv
  | int n dw mn mx =>
    by_cases hargs : dw = none ∧ mn = none ∧ mx = none
    · obtain ⟨rfl, rfl, rfl⟩ := hargs
      show parseParamBody (n.data ++ [':', 'i', 'n', 't']) = _
      rw [show n.data ++ [':', 'i', 'n', 't']
          = n.data ++ ':' :: ['i', 'n', 't'] from rfl,
        parseParamBody_split n hv]
      rfl
    · unfold paramBodyChars
      dsimp only
      rw [if_neg (fun he => hargs ((intArgs_isEmpty dw mn mx).mp he))]
      rw [show n.data ++ [':', 'i', 'n', 't', '('] ++ joinArgsChars
          ((dw.map (fun v => (intText v).data)).toList ++
           (mn.map (fun v =>
             ['m', 'i', 'n', '='] ++ (intText v).data)).toList ++
           (mx.map (fun v =>
             ['m', 'a', 'x', '='] ++ (intText v).data)).toList) ++ [')']
          = n.data ++ ':' :: (['i', 'n', 't', '('] ++ (joinArgsChars
          ((dw.map (fun v => (intText v).data)).toList ++
           (mn.map (fun v =>
             ['m', 'i', 'n', '='] ++ (intText v).data)).toList ++
           (mx.map (fun v =>
             ['m', 'a', 'x', '='] ++ (intText v).data)).toList) ++ [')']))
          from by simp [List.append_assoc],
        parseParamBody_split n hv, parseKind_intArgs n dw mn mx hargs]
  | float n mn mx fin =>
    have hv3 : validName n = true ∧ mn.all numTextOk = true ∧
        mx.all numTextOk = true := by
      simpa [validParam, Bool.and_eq_true, and_assoc] using hv
    by_cases hargs : mn = none ∧ mx = none ∧ fin = true
    · obtain ⟨rfl, rfl, rfl⟩ := hargs
      show parseParamBody (n.data ++ [':', 'f', 'l', 'o', 'a', 't']) = _
      rw [show n.data ++ [':', 'f', 'l', 'o', 'a', 't']
          = n.data ++ ':' :: ['f', 'l', 'o', 'a', 't'] from rfl,
        parseParamBody_split n hv3.1]
      rfl
    · unfold paramBodyChars
      dsimp only
      rw [if_neg (fun he => hargs ((floatArgs_isEmpty mn mx fin).mp he))]
      rw [show n.data ++ [':', 'f', 'l', 'o', 'a', 't', '('] ++
          joinArgsChars
          ((mn.map (fun v => ['m', 'i', 'n', '='] ++ v.data)).toList ++
           (mx.map (fun v => ['m', 'a', 'x', '='] ++ v.data)).toList ++
           (if fin then []
            else [['f', 'i', 'n', 'i', 't', 'e', '=', 'F', 'a', 'l', 's',
              'e']])) ++ [')']
          = n.data ++ ':' :: (['f', 'l', 'o', 'a', 't', '('] ++
          (joinArgsChars
          ((mn.map (fun v => ['m', 'i', 'n', '='] ++ v.data)).toList ++
           (mx.map (fun v => ['m', 'a', 'x', '='] ++ v.data)).toList ++
           (if fin then []
            else [['f', 'i', 'n', 'i', 't', 'e', '=', 'F', 'a', 'l', 's',
              'e']])) ++ [')'])) from by simp [List.append_assoc],
        parseParamBody_split n hv3.1,
        parseKind_floatArgs n mn mx fin hv3.2.1 hv3.2.2 hargs]
  | uuid n =>
    show parseParamBody (n.data ++ [':', 'u', 'u', 'i', 'd']) = _
    rw [show n.data ++ [':', 'u', 'u', 'i', 'd']
        = n.data ++ ':' :: ['u', 'u', 'i', 'd'] from rfl,
      parseParamBody_split n hv]
    rfl
  | path n =>
    show parseParamBody (n.data ++ [':', 'p', 'a', 't', 'h']) = _
    rw [show n.data ++ [':', 'p', 'a', 't', 'h']
        = n.data ++ ':' :: ['p', 'a', 't', 'h'] from rfl,
      parseParamBody_split n hv]
    rfl
  | dt n f =>
    have hv2 : validName n = true ∧ f.all fmtOk = true := by
      simpa [validParam, Bool.and_eq_true] using hv
    cases f with
    | none =>
      show parseParamBody (n.data ++ [':', 'd', 't']) = _
      rw [show n.data ++ [':', 'd', 't'] = n.data ++ ':' :: ['d', 't']
          from rfl, parseParamBody_split n hv2.1]
      rfl
    | some f =>
      have hf : fmtOk f = true := by simpa using hv2.2
      show parseParamBody (n.data ++ [':', 'd', 't', '('] ++
        '"' :: f.data ++ ['"', ')']) = _
      rw [show n.data ++ [':', 'd', 't', '('] ++ '"' :: f.data ++ ['"', ')']
          = n.data ++ ':' :: (['d', 't', '('] ++ ('"' :: f.data ++
            ['"', ')'])) from by simp [List.append_assoc],
        parseParamBody_split n hv2.1, parseKind_dtFmt n f hf]

/-! ## Fragment bodies contain only safe characters -/

theorem mem_joinArgsChars (parts : List (List Char)) (c : Char)
    (h : c ∈ joinArgsChars parts) :
    (∃ p ∈ parts, c ∈ p) ∨ c = ',' ∨ c = ' ' := by
  induction parts with
  | nil => cases h
  | cons p ps ih =>
    cases ps with
    | nil => exact .inl ⟨p, by simp, h⟩
    | cons q qs =>
      rw [joinArgsChars_cons2 p (q :: qs) (by simp)] at h
      rcases List.mem_append.mp h with h1 | h2
      · exact .inl ⟨p, by simp, h1⟩
      · rcases List.mem_cons.mp h2 with rfl | h3
        · right; left; rfl
        · rcases List.mem_cons.mp h3 with rfl | h4
          · right; right; rfl
          · rcases ih h4 with ⟨r, hr, hcr⟩ | hc
            · exact .inl ⟨r, by simp [hr], hcr⟩
            · exact .inr hc

theorem intText_charOk (v : Int) :
    ∀ c ∈ (intText v).data, charOkB c = true := by
  intro c hc
  rcases intText_chars v c hc with hd | hd
  · exact charOkB_digit c hd
  · subst hd; decide

theorem numText_charOk (v : String) (h : numTextOk v = true) :
    ∀ c ∈ v.data, charOkB c = true := by
  intro c hc
  rcases isNumChars_chars v.data h c hc with hd | hd | hd
  · exact charOkB_digit c hd
  · subst hd; decide
  · subst hd; decide

theorem mem_opt_toList {α β : Type} (f : α → β) (o : Option α) (x : β)
    (h : x ∈ (o.map f).toList) : ∃ a, o = some a ∧ x = f a := by
  cases o with
  | none => cases h
  | some a =>
    simp only [Option.map_some', Option.toList_some,
      List.mem_singleton] at h
    exact ⟨a, rfl, h⟩

theorem intParts_charOk (dw mn mx : Option Int) :
    ∀ part ∈ ((dw.map (fun v => (intText v).data)).toList ++
      (mn.map (fun v => ['m', 'i', 'n', '='] ++ (intText v).data)).toList ++
      (mx.map (fun v => ['m', 'a', 'x', '='] ++ (intText v).data)).toList),
      ∀ c ∈ part, charOkB c = true := by
  intro part hp c hc
  rcases List.mem_append.mp hp with hp1 | hp3
  · rcases List.mem_append.mp hp1 with hp1 | hp2
    · obtain ⟨a, -, rfl⟩ := mem_opt_toList _ dw part hp1
      exact intText_charOk a c hc
    · obtain ⟨a, -, rfl⟩ := mem_opt_toList _ mn part hp2
      rcases List.mem_append.mp hc with hc | hc
      · simp only [List.mem_cons, List.not_mem_nil, or_false] at hc
        rcases hc with rfl | rfl | rfl | rfl <;> decide
      · exact intText_charOk a c hc
  · obtain ⟨a, -, rfl⟩ := mem_opt_toList _ mx part hp3
    rcases List.mem_append.mp hc with hc | hc
    · simp only [List.mem_cons, List.not_mem_nil, or_false] at hc
      rcases hc with rfl | rfl | rfl | rfl <;> decide
    · exact intText_charOk a c hc

theorem floatParts_charOk (mn mx : Option String) (fin : Bool)
    (hmn : mn.all numTextOk = true) (hmx : mx.all numTextOk = true) :
    ∀ part ∈ ((mn.map (fun v => ['m', 'i', 'n', '='] ++ v.data)).toList ++
      (mx.map (fun v => ['m', 'a', 'x', '='] ++ v.data)).toList ++
      (if fin then []
       else [['f', 'i', 'n', 'i', 't', 'e', '=', 'F', 'a', 'l', 's', 'e']])),
      ∀ c ∈ part, charOkB c = true := by
  intro part hp c hc
  rcases List.mem_append.mp hp with hp1 | hp3
  · rcases List.mem_append.mp hp1 with hp1 | hp2
    · obtain ⟨a, ha, rfl⟩ := mem_opt_toList _ mn part hp1
      subst ha
      simp only [Option.all_some] at hmn
      rcases List.mem_append.mp hc with hc | hc
      · simp only [List.mem_cons, List.not_mem_nil, or_false] at hc
        rcases hc with rfl | rfl | rfl | rfl <;> decide
      · exact numText_charOk a hmn c hc
    · obtain ⟨a, ha, rfl⟩ := mem_opt_toList _ mx part hp2
      subst ha
      simp only [Option.all_some] at hmx
      rcases List.mem_append.mp hc with hc | hc
      · simp only [List.mem_cons, List.not_mem_nil, or_false] at hc
        rcases hc with rfl | rfl | rfl | rfl <;> decide
      · exact numText_charOk a hmx c hc
  · cases fin with
    | true => simp at hp3
    | false =>
      simp at hp3
      subst hp3
      simp only [List.mem_cons, List.not_mem_nil, or_false] at hc
      rcases hc with rfl | rfl | rfl | rfl | rfl | rfl | rfl | rfl | rfl |
        rfl | rfl | rfl <;> decide

theorem paramBody_chars_ok (p : Param) (hv : validParam p = true) :
    ∀ c ∈ paramBodyChars p, charOkB c = true := by
  cases p with
  | str n => exact fun c hc => (validName_chars n hv c hc).1
  | int n dw mn mx =>
    intro c hc
    unfold paramBodyChars at hc
    dsimp only at hc
    split at hc
    · rcases List.mem_append.mp hc with h1 | h2
      · exact (validName_chars n hv c h1).1
      · simp only [List.mem_cons, List.not_mem_nil, or_false] at h2
        rcases h2 with rfl | rfl | rfl | rfl <;> decide
    · rcases List.mem_append.mp hc with h1 | h4
      · rcases List.mem_append.mp h1 with h2 | h3
        · rcases List.mem_append.mp h2 with h5 | h6
          · exact (validName_chars n hv c h5).1
          · simp only [List.mem_cons, List.not_mem_nil, or_false] at h6
            rcases h6 with rfl | rfl | rfl | rfl | rfl <;> decide
        · rcases mem_joinArgsChars _ c h3 with ⟨part, hp, hcp⟩ | hc2 | hc2
          · exact intParts_charOk dw mn mx part hp c hcp
          · subst hc2; decide
          · subst hc2; decide
      · simp only [List.mem_singleton] at h4
        subst h4; decide
  | float n mn mx fin =>
    have hv3 : validName n = true ∧ mn.all numTextOk = true ∧
        mx.all numTextOk = true := by
      simpa [validParam, Bool.and_eq_true, and_assoc] using hv
    intro c hc
    unfold paramBodyChars at hc
    dsimp only at hc
    cases fin with
    | true =>
      rw [if_pos rfl] at hc
      split at hc
      · rcases List.mem_append.mp hc with h1 | h2
        · exact (validName_chars n hv3.1 c h1).1
        · simp only [List.mem_cons, List.not_mem_nil, or_false] at h2
          rcases h2 with rfl | rfl | rfl | rfl | rfl | rfl <;> decide
      · rcases List.mem_append.mp hc with h1 | h4
        · rcases List.mem_append.mp h1 with h2 | h3
          · rcases List.mem_append.mp h2 with h5 | h6
            · exact (validName_chars n hv3.1 c h5).1
            · simp only [List.mem_cons, List.not_mem_nil, or_false] at h6
              rcases h6 with rfl | rfl | rfl | rfl | rfl | rfl | rfl <;>
                decide
          · rcases mem_joinArgsChars _ c h3 with ⟨part, hp, hcp⟩ | hc2 | hc2
            · exact floatParts_charOk mn mx true hv3.2.1 hv3.2.2 part hp
                c hcp
            · subst hc2; decide
            · subst hc2; decide
        · simp only [List.mem_singleton] at h4
          subst h4; decide
    | false =>
      rw [if_neg Bool.false_ne_true] at hc
      split at hc
      · rcases List.mem_append.mp hc with h1 | h2
        · exact (validName_chars n hv3.1 c h1).1
        · simp only [List.mem_cons, List.not_mem_nil, or_false] at h2
          rcases h2 with rfl | rfl | rfl | rfl | rfl | rfl <;> decide
      · rcases List.mem_append.mp hc with h1 | h4
        · rcases List.mem_append.mp h1 with h2 | h3
          · rcases List.mem_append.mp h2 with h5 | h6
            · exact (validName_chars n hv3.1 c h5).1
            · simp only [List.mem_cons, List.not_mem_nil, or_false] at h6
              rcases h6 with rfl | rfl | rfl | rfl | rfl | rfl | rfl <;>
                decide
          · rcases mem_joinArgsChars _ c h3 with ⟨part, hp, hcp⟩ | hc2 | hc2
            · exact floatParts_charOk mn mx false hv3.2.1 hv3.2.2 part hp
                c hcp
            · subst hc2; decide
            · subst hc2; decide
        · simp only [List.mem_singleton] at h4
          subst h4; decide
  | uuid n =>
    intro c hc
    rcases List.mem_append.mp hc with h1 | h2
    · exact (validName_chars n hv c h1).1
    · simp only [List.mem_cons, List.not_mem_nil, or_false] at h2
      rcases h2 with rfl | rfl | rfl | rfl | rfl <;> decide
  | path n =>
    intro c hc
    rcases List.mem_append.mp hc with h1 | h2
    · exact (validName_chars n hv c h1).1
    · simp only [List.mem_cons, List.not_mem_nil, or_false] at h2
      rcases h2 with rfl | rfl | rfl | rfl | rfl <;> decide
  | dt n f =>
    have hv2 : validName n = true ∧ f.all fmtOk = true := by
      simpa [validParam, Bool.and_eq_true] using hv
    cases f with
    | none =>
      intro c hc
      rcases List.mem_append.mp hc with h1 | h2
      · exact (validName_chars n hv2.1 c h1).1
      · simp only [List.mem_cons, List.not_mem_nil, or_false] at h2
        rcases h2 with rfl | rfl | rfl <;> decide
    | some f =>
      have hf : fmtOk f = true := by simpa using hv2.2
      intro c hc
      rcases List.mem_append.mp hc with h1 | h6
      · rcases List.mem_append.mp h1 with h2 | h3
        · rcases List.mem_append.mp h2 with h4 | h5
          · exact (validName_chars n hv2.1 c h4).1
          · simp only [List.mem_cons, List.not_mem_nil, or_false] at h5
            rcases h5 with rfl | rfl | rfl | rfl <;> decide
        · rcases List.mem_cons.mp h3 with rfl | h7
          · decide
          · simp only [fmtOk, List.all_eq_true, Bool.and_eq_true] at hf
            exact (hf c h7).1
      · simp only [List.mem_cons, List.not_mem_nil, or_false] at h6
        rcases h6 with rfl | rfl <;> decide

/-! ## Segment- and route-level round trip -/

/-- The chunk list the parser produces for a rendered segment: the same
chunks with adjacent literal characters re-grouped into maximal runs. -/
def segParsed : RSegment → RSegment
  | [] => []
  | .lit t :: rest => prependLit t (segParsed rest)
  | .par p :: rest => .par p :: segParsed rest

theorem charOkB_spec (c : Char) (h : charOkB c = true) :
    c ≠ '\x7b' ∧ c ≠ '\x7d' ∧ c ≠ '/' := by
  simpa [charOkB, Bool.and_eq_true, bne_iff_ne, and_assoc] using h

theorem parseChunks_renderSeg (seg : RSegment)
    (hv : ∀ ch ∈ seg, validChunk ch = true) :
    parseChunks (renderSeg seg) = .ok (segParsed seg) := by
  induction seg with
  | nil => rfl
  | cons ch rest ih =>
    have hrest := ih (fun c hc => hv c (by simp [hc]))
    cases ch with
    | lit t =>
      have hlit : t.all charOkB = true := hv (Chunk.lit t) (by simp)
      rw [List.all_eq_true] at hlit
      rw [show renderSeg (.lit t :: rest) = t ++ renderSeg rest from rfl,
        parseChunks_prependLit t (fun x hx =>
          ⟨(charOkB_spec x (hlit x hx)).1,
            (charOkB_spec x (hlit x hx)).2.1⟩) _,
        hrest]
      rfl
    | par p =>
      have hp : validParam p = true := hv (Chunk.par p) (by simp)
      have hbody := paramBody_chars_ok p hp
      rw [show renderSeg (.par p :: rest)
          = '\x7b' :: paramBodyChars p ++ '\x7d' :: renderSeg rest from by
        show fragChars p ++ renderSeg rest = _
        simp [fragChars, List.append_assoc],
        parseChunks_brace _ _ (fun x hx =>
          ⟨(charOkB_spec x (hbody x hx)).1,
            (charOkB_spec x (hbody x hx)).2.1⟩),
        parseParamBody_frag p hp, hrest]
      rfl

theorem renderSeg_segParsed (seg : RSegment) :
    renderSeg (segParsed seg) = renderSeg seg := by
  induction seg with
  | nil => rfl
  | cons ch rest ih =>
    cases ch with
    | lit t =>
      rw [show segParsed (.lit t :: rest) = prependLit t (segParsed rest)
          from rfl, renderSeg_prependLit, ih]
      rfl
    | par p =>
      show fragChars p ++ renderSeg (segParsed rest)
        = fragChars p ++ renderSeg rest
      rw [ih]

theorem chunkName_consLit (c : Char) (chunks : List Chunk) :
    (consLit c chunks).filterMap chunkName = chunks.filterMap chunkName := by
  cases chunks with
  | nil => rfl
  | cons ch rest =>
    cases ch with
    | lit t => rfl
    | par p => rfl

theorem chunkName_prependLit (t : List Char) (chunks : List Chunk) :
    (prependLit t chunks).filterMap chunkName
      = chunks.filterMap chunkName := by
  induction t with
  | nil => rfl
  | cons c t ih =>
    unfold prependLit at ih ⊢
    rw [List.foldr_cons, chunkName_consLit]
    exact ih

theorem segParsed_names (seg : RSegment) :
    (segParsed seg).filterMap chunkName = seg.filterMap chunkName := by
  induction seg with
  | nil => rfl
  | cons ch rest ih =>
    cases ch with
    | lit t =>
      rw [show segParsed (.lit t :: rest) = prependLit t (segParsed rest)
          from rfl, chunkName_prependLit, ih]
      rfl
    | par p =>
      show List.filterMap chunkName (.par p :: segParsed rest)
        = List.filterMap chunkName (.par p :: rest)
      rw [List.filterMap_cons, List.filterMap_cons, ih]

theorem renderSeg_no_slash (seg : RSegment)
    (hv : ∀ ch ∈ seg, validChunk ch = true) :
    ∀ c ∈ renderSeg seg, c ≠ '/' := by
  intro c hc
  unfold renderSeg at hc
  rw [List.mem_flatMap] at hc
  obtain ⟨ch, hch, hcc⟩ := hc
  cases ch with
  | lit t =>
    have hlit : t.all charOkB = true := hv (Chunk.lit t) hch
    rw [List.all_eq_true] at hlit
    exact (charOkB_spec c (hlit c hcc)).2.2
  | par p =>
    have hp : validParam p = true := hv (Chunk.par p) hch
    rcases List.mem_append.mp hcc with h1 | h2
    · rcases List.mem_cons.mp h1 with rfl | h3
      · decide
      · exact (charOkB_spec c (paramBody_chars_ok p hp c h3)).2.2
    · simp only [List.mem_singleton] at h2
      subst h2
      decide

theorem splitSlash_single (p : List Char) (h : ∀ c ∈ p, c ≠ '/') :
    splitSlash p = [p] := by
  induction p with
  | nil => rfl
  | cons c t ih =>
    show (if c = '/' then [] :: splitSlash t
      else match splitSlash t with
        | [] => [[c]]
        | p :: ps => (c :: p) :: ps) = [c :: t]
    rw [if_neg (h c (by simp)), ih (fun x hx => h x (by simp [hx]))]

theorem splitSlash_sep (p : List Char) (h : ∀ c ∈ p, c ≠ '/')
    (rest : List Char) :
    splitSlash (p ++ '/' :: rest) = p :: splitSlash rest := by
  induction p with
  | nil =>
    show (if '/' = '/' then [] :: splitSlash rest
      else match splitSlash rest with
        | [] => [['/']]
        | p :: ps => ('/' :: p) :: ps) = [] :: splitSlash rest
    rw [if_pos rfl]
  | cons c t ih =>
    show (if c = '/' then [] :: splitSlash (t ++ '/' :: rest)
      else match splitSlash (t ++ '/' :: rest) with
        | [] => [[c]]
        | p :: ps => (c :: p) :: ps) = (c :: t) :: splitSlash rest
    rw [if_neg (h c (by simp)), ih (fun x hx => h x (by simp [hx]))]

theorem splitSlash_join (pieces : List (List Char)) (hne : pieces ≠ [])
    (h : ∀ p ∈ pieces, ∀ c ∈ p, c ≠ '/') :
    splitSlash (joinSlashChars pieces) = pieces := by
  induction pieces with
  | nil => exact absurd rfl hne
  | cons p ps ih =>
    cases ps with
    | nil => exact splitSlash_single p (h p (by simp))
    | cons q qs =>
      rw [show joinSlashChars (p :: q :: qs)
          = p ++ '/' :: joinSlashChars (q :: qs) from rfl,
        splitSlash_sep p (h p (by simp)) _,
        ih (by simp) (fun r hr => h r (by simp [hr]))]

theorem parsePieces_map (r : Route)
    (hv : ∀ seg ∈ r, ∀ ch ∈ seg, validChunk ch = true) :
    parsePieces (r.map renderSeg) = .ok (r.map segParsed) := by
  induction r with
  | nil => rfl
  | cons seg rest ih =>
    rw [List.map_cons]
    show (match parseChunks (renderSeg seg) with
      | Except.error e => Except.error e
      | Except.ok sp =>
        match parsePieces (rest.map renderSeg) with
        | Except.error e => Except.error e
        | Except.ok segs => Except.ok (sp :: segs))
      = Except.ok ((seg :: rest).map segParsed)
    rw [parseChunks_renderSeg seg (hv seg (by simp)),
      ih (fun s hs => hv s (by simp [hs]))]
    rfl

theorem routeNames_map_segParsed (r : Route) :
    routeNames (r.map segParsed) = routeNames r := by
  induction r with
  | nil => rfl
  | cons seg rest ih =>
    show (segParsed seg).filterMap chunkName ++
      routeNames (rest.map segParsed) = _
    rw [segParsed_names, ih]
    rfl

/-- C8 (spec-modelled): for every valid Route built via the composition
algebra, parsing the compiled canonical template succeeds and the result
compiles to exactly the same text, hence
compile (parse (compile route)) = compile route. -/
theorem C8_roundtrip (r : Route) (hr : validRoute r) :
    ∃ r2, parseRoute (compileRoute r) = .ok r2 ∧
      compileRoute r2 = compileRoute r := by
  obtain ⟨hv, hnames⟩ := hr
  have hcompile : compileRoute (r.map segParsed) = compileRoute r := by
    unfold compileRoute
    congr 1
    rw [List.map_map]
    exact congrArg joinSlashChars
      (List.map_congr_left fun s _ => renderSeg_segParsed s)
  cases r with
  | nil => exact ⟨[[]], rfl, rfl⟩
  | cons seg rest =>
    refine ⟨(seg :: rest).map segParsed, ?_, hcompile⟩
    unfold parseRoute
    rw [show (compileRoute (seg :: rest)).data
        = joinSlashChars ((seg :: rest).map renderSeg) from rfl,
      splitSlash_join _ (by simp) (by
        intro p hp c hc
        obtain ⟨s, hs, rfl⟩ := List.mem_map.mp hp
        exact renderSeg_no_slash s (hv s hs) c hc),
      parsePieces_map _ hv]
    dsimp only
    rw [if_pos (by rw [routeNames_map_segParsed]; exact hnames)]

theorem C8_roundtrip_witness :
    validRoute [[.lit ['f', 'o', 'o']], [.par (.str "s")],
      [.par (.int "i" (some 3) (some 1) (some 10))],
      [.par (.float "f" (some "1.5") none false)],
      [.par (.dt "d" (some "%Y"))], [.par (.uuid "u")],
      [.par (.path "p")], []] ∧
    ∃ r2, parseRoute (compileRoute ([[.lit ['f', 'o', 'o']],
        [.par (.str "s")], [.par (.int "i" (some 3) (some 1) (some 10))],
        [.par (.float "f" (some "1.5") none false)],
        [.par (.dt "d" (some "%Y"))], [.par (.uuid "u")],
        [.par (.path "p")], []] : Route)) = .ok r2 ∧
      compileRoute r2 = compileRoute ([[.lit ['f', 'o', 'o']],
        [.par (.str "s")], [.par (.int "i" (some 3) (some 1) (some 10))],
        [.par (.float "f" (some "1.5") none false)],
        [.par (.dt "d" (some "%Y"))], [.par (.uuid "u")],
        [.par (.path "p")], []] : Route) :=
  ⟨⟨by decide, by decide⟩,
    C8_roundtrip _ ⟨by decide, by decide⟩⟩

/-! ## Router registration: the leading-slash structural check (C6) -/

/-- Failures of Router.add_route / Router.add before registration: a
template parse failure while parsing a string route (spec-modelled
_parse_template), or the structural ValueError
"route must begin with slash". -/
inductive AddErr
  | tmpl (e : PErr)
  | notSlash
deriving DecidableEq, Repr

/-- router.py Router.add_route (lines 107-111): a string route is first
parsed by the template parser; then the route's string form must begin
with "/" or a ValueError is raised. Success yields the structural Route
(the remaining body delegates registration to Falcon, out of scope). -/
def add_route_check (route : Route ⊕ String) : Except AddErr Route :=
  match route with
  | .inl r =>
      if pyStartswith (compileRoute r) "/" then .ok r
      else .error .notSlash
  | .inr s =>
      match parseRoute s with
      | .error e => .error (.tmpl e)
      | .ok r =>
          if pyStartswith (compileRoute r) "/" then .ok r
          else .error .notSlash

/-- router.py Router.add (lines 145-151): the same parse-then-check
prologue as add_route, on `template = str(route)`. -/
def add_check (route : Route ⊕ String) : Except AddErr Route :=
  match route with
  | .inl r =>
      if pyStartswith (compileRoute r) "/" then .ok r
      else .error .notSlash
  | .inr s =>
      match parseRoute s with
      | .error e => .error (.tmpl e)
      | .ok r =>
          if pyStartswith (compileRoute r) "/" then .ok r
          else .error .notSlash

/-- C6: for every route argument, given either as a structural Route or
as a template string that parses to structural Route r, Router.add_route
and Router.add raise the route-must-begin-with-slash error exactly when
the route's string form (str(route), spec-modelled as compileRoute) does
not begin with "/"; and the empty route string is rejected with that
error by both registration operations. -/
theorem C6_must_begin_with_slash (input : Route ⊕ String) (r : Route)
    (hr : match input with
      | .inl r0 => r0 = r
      | .inr s => parseRoute s = .ok r) :
    ((add_route_check input = .error .notSlash
        ↔ pyStartswith (compileRoute r) "/" = false)
      ∧ (add_check input = .error .notSlash
        ↔ pyStartswith (compileRoute r) "/" = false))
    ∧ add_route_check (.inr "") = .error .notSlash
    ∧ add_check (.inr "") = .error .notSlash := by
  refine ⟨?_, rfl, rfl⟩
  cases input with
  | inl r0 =>
      cases hr
      cases h : pyStartswith (compileRoute r) "/" <;>
        simp [add_route_check, add_check, h]
  | inr s =>
      cases h : pyStartswith (compileRoute r) "/" <;>
        simp [add_route_check, add_check, hr, h]

theorem C6_witness :
    parseRoute "/foo" = .ok [[], [.lit ['f', 'o', 'o']]] ∧
    (((add_route_check (.inr "/foo") = .error .notSlash
        ↔ pyStartswith
            (compileRoute [[], [.lit ['f', 'o', 'o']]]) "/" = false)
      ∧ (add_check (.inr "/foo") = .error .notSlash
        ↔ pyStartswith
            (compileRoute [[], [.lit ['f', 'o', 'o']]]) "/" = false))
    ∧ add_route_check (.inr "") = .error .notSlash
    ∧ add_check (.inr "") = .error .notSlash) :=
  ⟨rfl, C6_must_begin_with_slash (.inr "/foo")
    [[], [.lit ['f', 'o', 'o']]] rfl⟩

end FalconUrl
